import Mathlib

/-!
Verification of the godu disk-usage analyzer core against its specification.

The Go source is shallowly embedded: machine `int64` values are modelled as
`Int` with explicit clamping or wrapping exactly where the Go code clamps or
its arithmetic can overflow, `uint64` values as `Nat` with an explicit range
bound, trees as an inductive value type in which the Go `Parent` back-pointer
is represented by the nesting itself, and fallible operations return
`Option`/`Except` or an error-and-state pair.
-/

namespace Godu

/-! ## int64 arithmetic (src/unnamed/part_014, `maxInt64`/`minInt64`) -/

def maxInt64 : Int := 2 ^ 63 - 1

def minInt64 : Int := -maxInt64 - 1

/-- Embedding of `saturatingAddInt64` from src/unnamed/part_014: the overflow
guards are checked before adding, exactly as in the Go code (the Go
subtractions `maxInt64-b` and `minInt64-b` cannot overflow under their guards,
so exact `Int` arithmetic mirrors them faithfully). -/
def saturatingAddInt64 (a b : Int) : Int :=
  if b > 0 ∧ a > maxInt64 - b then maxInt64
  else if b < 0 ∧ a < minInt64 - b then minInt64
  else a + b

/-- Clamping an exact integer into the signed 64-bit range. -/
def clamp64 (x : Int) : Int :=
  if x > maxInt64 then maxInt64 else if x < minInt64 then minInt64 else x

theorem saturatingAddInt64_eq_clamp (a b : Int)
    (ha : minInt64 ≤ a) (ha' : a ≤ maxInt64) :
    saturatingAddInt64 a b = clamp64 (a + b) := by
  simp only [saturatingAddInt64, clamp64, minInt64, maxInt64] at *
  split_ifs <;> omega

theorem clamp64_mem (x : Int) : minInt64 ≤ clamp64 x ∧ clamp64 x ≤ maxInt64 := by
  simp only [clamp64, minInt64, maxInt64]
  split_ifs <;> omega

/-! ## Tree model (src/unnamed/part_014, `FileNode` / `DirNode`)

`NodeFlag` is a `uint8` bit set; we model it as a `Nat` bit mask with the
constants produced by the Go `iota` declaration. `time.Time` is modelled as an
`Int` instant whose zero value is `0`. The `Parent` pointer of the Go nodes is
represented structurally: a node's parent is the directory whose child list
contains it, so value equality of subtrees carries parent-chain agreement. -/

def FlagNone : Nat := 0
def FlagSymlink : Nat := 2
def FlagError : Nat := 4
def FlagHardlink : Nat := 8
def FlagUsageEstimated : Nat := 16

/-- The common fields of `FileNode` (shared by directories through Go's struct
embedding). -/
structure FileMeta where
  name : String
  size : Int
  usage : Int
  mtime : Int
  inode : Nat
  flag : Nat
  deriving Repr, DecidableEq

/-- A tree node: either a file leaf or a directory with an ordered child list
and the derived `ItemCount` field. -/
inductive TreeNode where
  | file (meta : FileMeta)
  | dir (meta : FileMeta) (children : List TreeNode) (itemCount : Int)

namespace TreeNode

/-- `GetName` of both node kinds. -/
def getName : TreeNode → String
  | .file m => m.name
  | .dir m _ _ => m.name

/-- `GetSize` of both node kinds. -/
def getSize : TreeNode → Int
  | .file m => m.size
  | .dir m _ _ => m.size

/-- `GetUsage` of both node kinds. -/
def getUsage : TreeNode → Int
  | .file m => m.usage
  | .dir m _ _ => m.usage

/-- `GetMtime` of both node kinds. -/
def getMtime : TreeNode → Int
  | .file m => m.mtime
  | .dir m _ _ => m.mtime

/-- `GetFlag` of both node kinds. -/
def getFlag : TreeNode → Nat
  | .file m => m.flag
  | .dir m _ _ => m.flag

/-- `IsDir` of both node kinds. -/
def isDir : TreeNode → Bool
  | .file _ => false
  | .dir _ _ _ => true

/-- The `ItemCount` field (zero for files, which do not carry it). -/
def itemCount : TreeNode → Int
  | .file _ => 0
  | .dir _ _ n => n

/-- Children of a node (empty for files). -/
def children : TreeNode → List TreeNode
  | .file _ => []
  | .dir _ cs _ => cs

end TreeNode

/-- One iteration of the loop body of `DirNode.UpdateSize`
(src/unnamed/part_014 lines 101–108): the three accumulators are updated in a
single pass over the children, the item count adding the child's `ItemCount`
first when the child is a directory and then `1` for the child itself. -/
def updateSizeStep (acc : Int × Int × Int) (c : TreeNode) : Int × Int × Int :=
  let size := saturatingAddInt64 acc.1 c.getSize
  let usage := saturatingAddInt64 acc.2.1 c.getUsage
  let count :=
    match c with
    | .dir _ _ ic => saturatingAddInt64 acc.2.2 ic
    | .file _ => acc.2.2
  let count := saturatingAddInt64 count 1
  (size, usage, count)

/-- Embedding of `DirNode.UpdateSize`: recompute `Size`, `Usage` and
`ItemCount` of a directory from its current children; files are untouched (the
Go method exists only on `*DirNode`). -/
def updateSize : TreeNode → TreeNode
  | .file m => .file m
  | .dir m cs _ =>
    let r := cs.foldl updateSizeStep (0, 0, 0)
    .dir { m with size := r.1, usage := r.2.1 } cs r.2.2

/-- The specification-level saturating sum of the children's sizes: a fold in
which every addition clamps against the signed 64-bit bounds. -/
def satSumSizes (cs : List TreeNode) : Int :=
  cs.foldl (fun a c => clamp64 (a + c.getSize)) 0

/-- The specification-level saturating sum of the children's usages. -/
def satSumUsages (cs : List TreeNode) : Int :=
  cs.foldl (fun a c => clamp64 (a + c.getUsage)) 0

/-- The specification-level saturating item count: each child contributes `1`
plus, for a directory child, its own item count, with every addition clamped
against the signed 64-bit bounds. -/
def satItemCount (cs : List TreeNode) : Int :=
  cs.foldl
    (fun a c =>
      clamp64 ((match c with
        | .dir _ _ ic => clamp64 (a + ic)
        | .file _ => a) + 1)) 0

theorem updateSizeStep_eq_clamp (acc : Int × Int × Int) (c : TreeNode)
    (h1 : minInt64 ≤ acc.1 ∧ acc.1 ≤ maxInt64)
    (h2 : minInt64 ≤ acc.2.1 ∧ acc.2.1 ≤ maxInt64)
    (h3 : minInt64 ≤ acc.2.2 ∧ acc.2.2 ≤ maxInt64) :
    updateSizeStep acc c =
      (clamp64 (acc.1 + c.getSize), clamp64 (acc.2.1 + c.getUsage),
        clamp64 ((match c with
          | .dir _ _ ic => clamp64 (acc.2.2 + ic)
          | .file _ => acc.2.2) + 1)) := by
  unfold updateSizeStep
  cases c with
  | file m =>
    simp only [saturatingAddInt64_eq_clamp _ _ h1.1 h1.2,
      saturatingAddInt64_eq_clamp _ _ h2.1 h2.2,
      saturatingAddInt64_eq_clamp _ _ h3.1 h3.2]
  | dir m cs ic =>
    have hc := clamp64_mem (acc.2.2 + ic)
    simp only [saturatingAddInt64_eq_clamp _ _ h1.1 h1.2,
      saturatingAddInt64_eq_clamp _ _ h2.1 h2.2,
      saturatingAddInt64_eq_clamp _ _ h3.1 h3.2,
      saturatingAddInt64_eq_clamp _ _ hc.1 hc.2]

/-- The one-pass triple fold of `UpdateSize` splits into the three independent
clamped sums, as long as the starting accumulators are in range. -/
theorem updateSize_foldl_split (cs : List TreeNode) (a b c : Int)
    (h1 : minInt64 ≤ a ∧ a ≤ maxInt64)
    (h2 : minInt64 ≤ b ∧ b ≤ maxInt64)
    (h3 : minInt64 ≤ c ∧ c ≤ maxInt64) :
    cs.foldl updateSizeStep (a, b, c) =
      (cs.foldl (fun x n => clamp64 (x + n.getSize)) a,
       cs.foldl (fun x n => clamp64 (x + n.getUsage)) b,
       cs.foldl (fun x n =>
         clamp64 ((match n with
           | .dir _ _ ic => clamp64 (x + ic)
           | .file _ => x) + 1)) c) := by
  induction cs generalizing a b c with
  | nil => rfl
  | cons hd tl ih =>
    simp only [List.foldl_cons]
    rw [updateSizeStep_eq_clamp (a, b, c) hd h1 h2 h3]
    exact ih _ _ _ (clamp64_mem _) (clamp64_mem _) (clamp64_mem _)

/-- C1: after `UpdateSize` runs on a directory, its size is the saturating sum
of the children's sizes, its usage the saturating sum of their usages, and its
item count the saturating sum of `1 + (item count when the child is a
directory)`, every addition clamping at the signed 64-bit bounds instead of
wrapping. -/
theorem updateSize_aggregates (m : FileMeta) (cs : List TreeNode) (ic : Int) :
    (updateSize (.dir m cs ic)).getSize = satSumSizes cs ∧
    (updateSize (.dir m cs ic)).getUsage = satSumUsages cs ∧
    (updateSize (.dir m cs ic)).itemCount = satItemCount cs := by
  have hz : minInt64 ≤ (0 : Int) ∧ (0 : Int) ≤ maxInt64 := by
    simp only [minInt64, maxInt64]; omega
  have h := updateSize_foldl_split cs 0 0 0 hz hz hz
  refine ⟨?_, ?_, ?_⟩ <;>
    simp only [updateSize, TreeNode.getSize, TreeNode.getUsage, TreeNode.itemCount, h,
      satSumSizes, satSumUsages, satItemCount]

/-! ## Path model (src/internal/scanner/parallel.go `isWithin`,
src/internal/ops/delete.go)

Cleaned slash-separated paths are modelled at the component level: a `GoPath`
is an absolute/relative marker plus the list of path elements ("/a/b" is
`⟨true, ["a", "b"]⟩`, "/" is `⟨true, []⟩`, "." is `⟨false, []⟩`). A component
is wellformed when it is a nonempty element free of separators that is not one
of the dot elements — exactly the shape `filepath.Clean`/`EvalSymlinks`
outputs have for the paths this program feeds to `isWithin` and `Delete`. -/

structure GoPath where
  isAbs : Bool
  comps : List String
  deriving Repr, DecidableEq

/-- Wellformedness of a cleaned path's components. -/
def wfComp (c : String) : Bool :=
  c ≠ "" && c ≠ "." && c ≠ ".." && !(c.data.contains '/')

def wfPath (p : GoPath) : Bool := p.comps.all wfComp

/-- Length of the common component prefix of two paths, as computed by the
element-comparison loop of Go's `filepath.Rel`. -/
def commonPrefixLen : List String → List String → Nat
  | [], _ => 0
  | _ :: _, [] => 0
  | a :: as, b :: bs => if a = b then commonPrefixLen as bs + 1 else 0

/-- Embedding of Go's `filepath.Rel` on cleaned component paths. `none` is the
error return: Go refuses when exactly one side is rooted, or when the base
path's first differing element is `..`. The result components represent the
relative path, `[]` standing for the string ".". -/
def goRel (root target : GoPath) : Option (List String) :=
  if root.isAbs ≠ target.isAbs then none
  else if (root.comps.drop (commonPrefixLen root.comps target.comps)).head? =
      some ".." then none
  else some
    (List.replicate (root.comps.drop (commonPrefixLen root.comps target.comps)).length ".."
      ++ target.comps.drop (commonPrefixLen root.comps target.comps))

/-- The acceptance test `isWithin` applies to a successful `Rel` result:
"." is accepted, and otherwise the result must differ from ".." and must not
start with the component ".." followed by a separator. -/
def withinCheck (rel : List String) : Bool :=
  if rel = [] then true
  else if rel = [".."] then false
  else if rel.head? = some ".." ∧ rel.length ≥ 2 then false
  else true

/-- Embedding of `isWithin` (src/internal/scanner/parallel.go lines 427–436):
an error from `Rel` yields `false`; otherwise the relative path is tested. -/
def isWithin (root target : GoPath) : Bool :=
  match goRel root target with
  | none => false
  | some rel => withinCheck rel

/-- `target` is `root` itself or lies strictly beneath it: same rootedness and
the root's components are a prefix of the target's. -/
def beneathOrEqual (root target : GoPath) : Prop :=
  root.isAbs = target.isAbs ∧ root.comps <+: target.comps

theorem withinCheck_head_dotdot (r : List String) (h : r.head? = some "..") :
    withinCheck r = false := by
  cases r with
  | nil => simp at h
  | cons a rs =>
    simp only [List.head?_cons, Option.some.injEq] at h
    subst h
    cases rs with
    | nil => simp [withinCheck]
    | cons b bs =>
      have hne : (".." :: b :: bs : List String) ≠ [".."] := by simp
      simp [withinCheck, hne]

theorem withinCheck_head_ne_dotdot (r : List String) (h : r.head? ≠ some "..") :
    withinCheck r = true := by
  cases r with
  | nil => simp [withinCheck]
  | cons a rs =>
    simp only [List.head?_cons, ne_eq, Option.some.injEq] at h
    have hne : (a :: rs : List String) ≠ [".."] := by
      intro hx; injection hx with h1 _; exact h h1
    simp [withinCheck, hne, h]

theorem commonPrefixLen_le_left (as bs : List String) :
    commonPrefixLen as bs ≤ as.length := by
  induction as generalizing bs with
  | nil => simp [commonPrefixLen]
  | cons a as ih =>
    cases bs with
    | nil => simp [commonPrefixLen]
    | cons b bs =>
      simp only [commonPrefixLen, List.length_cons]
      split
      · exact Nat.succ_le_succ (ih bs)
      · exact Nat.zero_le _

theorem commonPrefixLen_full_iff (as bs : List String) :
    commonPrefixLen as bs = as.length ↔ as <+: bs := by
  induction as generalizing bs with
  | nil => simp [commonPrefixLen]
  | cons a as ih =>
    cases bs with
    | nil =>
      simp [commonPrefixLen]
    | cons b bs =>
      by_cases hab : a = b
      · subst hab
        rw [show commonPrefixLen (a :: as) (a :: bs) = commonPrefixLen as bs + 1 from by
          simp [commonPrefixLen]]
        simp only [List.length_cons, List.cons_prefix_cons]
        have hih := ih bs
        constructor
        · intro h
          exact ⟨by trivial, hih.mp (by omega)⟩
        · rintro ⟨_, hp⟩
          have := hih.mpr hp
          omega
      · simp only [commonPrefixLen, if_neg hab, List.length_cons,
        List.cons_prefix_cons]
        constructor
        · intro h; omega
        · rintro ⟨rfl, _⟩; exact absurd rfl hab

/-- C6: `isWithin(root, target)` returns `true` exactly when `target` is
`root` or lies strictly beneath it, for cleaned paths (the shapes produced by
`filepath.EvalSymlinks`/`filepath.Clean`, which the scanner passes to it);
equivalently it returns `false` exactly when the relative path errors out or
is ".." or starts with a "../" component. -/
theorem isWithin_iff_beneath (root target : GoPath)
    (hr : wfPath root = true) (ht : wfPath target = true) :
    isWithin root target = true ↔ beneathOrEqual root target := by
  unfold isWithin goRel
  by_cases habs : root.isAbs = target.isAbs
  · rw [if_neg (by simpa using habs)]
    by_cases hpre : root.comps <+: target.comps
    · have hc : commonPrefixLen root.comps target.comps = root.comps.length :=
        (commonPrefixLen_full_iff _ _).mpr hpre
      have hdrop : root.comps.drop (commonPrefixLen root.comps target.comps) = [] := by
        rw [hc]; simp
      simp only [hdrop, List.head?_nil, reduceCtorEq, if_false, List.length_nil,
        List.replicate_zero, List.nil_append]
      have hwf : (target.comps.drop (commonPrefixLen root.comps target.comps)).head?
          ≠ some ".." := by
        cases hd : target.comps.drop (commonPrefixLen root.comps target.comps) with
        | nil => simp
        | cons y ys =>
          have hmem : y ∈ target.comps.drop (commonPrefixLen root.comps target.comps) := by
            rw [hd]; exact List.mem_cons_self _ _
          have hy : wfComp y = true :=
            List.all_eq_true.mp ht y (List.mem_of_mem_drop hmem)
          simp only [wfComp, Bool.and_eq_true, decide_eq_true_eq,
            Bool.not_eq_true', ne_eq] at hy
          simp only [List.head?_cons, ne_eq, Option.some.injEq]
          exact hy.1.2
      rw [withinCheck_head_ne_dotdot _ hwf]
      simp [beneathOrEqual, habs, hpre]
    · have hc : commonPrefixLen root.comps target.comps < root.comps.length := by
        rcases Nat.lt_or_ge (commonPrefixLen root.comps target.comps)
          root.comps.length with h | h
        · exact h
        · exact absurd ((commonPrefixLen_full_iff _ _).mp
            (Nat.le_antisymm (commonPrefixLen_le_left _ _) h)) hpre
      have hdrop : root.comps.drop (commonPrefixLen root.comps target.comps) ≠ [] := by
        intro hx
        have := List.drop_eq_nil_iff.mp hx
        omega
      cases hd : root.comps.drop (commonPrefixLen root.comps target.comps) with
      | nil => exact absurd hd hdrop
      | cons x xs =>
        have hmem : x ∈ root.comps.drop (commonPrefixLen root.comps target.comps) := by
          rw [hd]; exact List.mem_cons_self _ _
        have hxwf : wfComp x = true :=
          List.all_eq_true.mp hr x (List.mem_of_mem_drop hmem)
        have hxne : x ≠ ".." := by
          simp only [wfComp, Bool.and_eq_true, decide_eq_true_eq,
            Bool.not_eq_true', ne_eq] at hxwf
          exact hxwf.1.2
        have hcond : ((x :: xs : List String)).head? ≠ some ".." := by
          simp only [List.head?_cons, ne_eq, Option.some.injEq]
          exact hxne
        rw [if_neg hcond]
        have hhead : (List.replicate (x :: xs).length ".." ++
            target.comps.drop (commonPrefixLen root.comps target.comps)).head?
            = some ".." := by
          simp [List.replicate_succ]
        show withinCheck (List.replicate (x :: xs).length ".." ++
            target.comps.drop (commonPrefixLen root.comps target.comps)) = true ↔ _
        rw [withinCheck_head_dotdot _ hhead]
        simp only [Bool.false_eq_true, false_iff, beneathOrEqual]
        rintro ⟨_, hp⟩
        exact hpre hp
  · rw [if_pos (by simpa using habs)]
    simp only [Bool.false_eq_true, false_iff, beneathOrEqual]
    rintro ⟨h, _⟩
    exact habs h

/-! ## Deletion (src/internal/ops/delete.go `Delete`)

`Delete` works against the real filesystem; we model the filesystem as a
finite association of existing cleaned absolute paths to an is-directory bit
(the `Lstat` view) together with a finite `EvalSymlinks` canonicalization map
(`none` models the error return). The four error exits of the Go function
appear as distinct error values; every error path leaves the filesystem
untouched, and the success path removes the target (and, for a directory, its
subtree, as `os.RemoveAll` does). `filepath.Abs` is the identity here because
the modelled inputs are already absolute. -/

inductive DelErr where
  | resolveParent
  | resolveRoot
  | scope
  | lstatFail
  deriving Repr, DecidableEq

structure FS where
  nodes : List (GoPath × Bool)
  resolv : List (GoPath × GoPath)
  deriving Repr, DecidableEq

/-- `filepath.EvalSymlinks`, as the scan's canonicalization oracle. -/
def FS.resolve (fs : FS) (p : GoPath) : Option GoPath :=
  List.lookup p fs.resolv

/-- `os.Lstat`: `some isDir` when the entry exists. -/
def FS.lstat (fs : FS) (p : GoPath) : Option Bool :=
  List.lookup p fs.nodes

/-- `filepath.Dir` of a cleaned path: all components but the last. -/
def dirOf (p : GoPath) : GoPath := ⟨p.isAbs, p.comps.dropLast⟩

/-- `filepath.Join(realParent, filepath.Base(absPath))`: the canonical form of
the target — parent resolved, final component taken lexically. -/
def canonTarget (realParent p : GoPath) : GoPath :=
  ⟨realParent.isAbs, realParent.comps ++ p.comps.getLast?.toList⟩

/-- `os.RemoveAll` / `os.Remove` on the model: drop the target entry, and for
a directory every entry beneath it. -/
def FS.removeAll (fs : FS) (p : GoPath) (isDir : Bool) : FS :=
  if isDir then
    ⟨fs.nodes.filter
      (fun e => !(decide (p.isAbs = e.1.isAbs) && decide (p.comps <+: e.1.comps))),
     fs.resolv⟩
  else
    ⟨fs.nodes.filter (fun e => decide (e.1 ≠ p)), fs.resolv⟩

/-- The acceptance test of `Delete` applied to a `Rel` result
(src/internal/ops/delete.go lines 41–44): an error, ".", ".." or a "../"
prefix all refuse the deletion. -/
def relCheckDel (o : Option (List String)) : Bool :=
  match o with
  | none => false
  | some rel =>
    if rel = [] ∨ rel = [".."] ∨ (rel.head? = some ".." ∧ rel.length ≥ 2) then false
    else true

theorem relCheckDel_none : relCheckDel none = false := rfl

theorem relCheckDel_some (r : List String) :
    relCheckDel (some r) =
      if r = [] ∨ r = [".."] ∨ (r.head? = some ".." ∧ r.length ≥ 2) then false
      else true := rfl

/-- The boundary test of `Delete`: `Rel(realRoot, realPath)` must succeed and
be neither "." nor ".." nor start with "../". -/
def strictCheck (root target : GoPath) : Bool :=
  relCheckDel (goRel root target)

/-- A successful boundary test forces the canonical target to sit strictly
beneath the canonical root (no cleanliness assumptions are needed in this
direction). -/
theorem strictCheck_true_beneath (root target : GoPath)
    (h : strictCheck root target = true) :
    beneathOrEqual root target ∧ target ≠ root := by
  unfold strictCheck goRel at h
  by_cases habs : root.isAbs = target.isAbs
  · rw [if_neg (by simpa using habs)] at h
    by_cases hcond : (root.comps.drop
        (commonPrefixLen root.comps target.comps)).head? = some ".."
    · rw [if_pos hcond, relCheckDel_none] at h
      exact absurd h (by simp)
    · rw [if_neg hcond, relCheckDel_some] at h
      cases hd : root.comps.drop (commonPrefixLen root.comps target.comps) with
      | cons x xs =>
        rw [hd] at h
        exfalso
        cases hx : List.replicate (x :: xs).length ".." ++
            target.comps.drop (commonPrefixLen root.comps target.comps) with
        | nil => simp [List.replicate_succ] at hx
        | cons z zs =>
          have hz : z = ".." := by
            have hh : (List.replicate (x :: xs).length ".." ++
                target.comps.drop
                  (commonPrefixLen root.comps target.comps)).head? = some ".." := by
              simp [List.replicate_succ]
            rw [hx] at hh
            simpa using hh
          subst hz
          rw [hx] at h
          cases zs with
          | nil => rw [if_pos (Or.inr (Or.inl rfl))] at h; exact absurd h (by simp)
          | cons w ws =>
            rw [if_pos (Or.inr (Or.inr ⟨by simp, by simp⟩))] at h
            exact absurd h (by simp)
      | nil =>
        have hpre : root.comps <+: target.comps :=
          (commonPrefixLen_full_iff _ _).mp
            (Nat.le_antisymm (commonPrefixLen_le_left _ _)
              (by have := List.drop_eq_nil_iff.mp hd; omega))
        rw [hd] at h
        simp only [List.length_nil, List.replicate_zero, List.nil_append] at h
        refine ⟨⟨habs, hpre⟩, ?_⟩
        intro heq
        subst heq
        rw [hd, if_pos (Or.inl rfl)] at h
        exact absurd h (by simp)
  · rw [if_pos (by simpa using habs), relCheckDel_none] at h
    exact absurd h (by simp)

/-- Embedding of `Delete` (src/internal/ops/delete.go lines 17–55), on
already-absolute inputs: resolve the parent of the target and the scan root,
rebuild the target with its final component kept lexical, refuse unless the
result is strictly inside the resolved root, then `Lstat` and remove. -/
def deleteGo (fs : FS) (path root : GoPath) : Option DelErr × FS :=
  match fs.resolve (dirOf path) with
  | none => (some .resolveParent, fs)
  | some realParent =>
    match fs.resolve root with
    | none => (some .resolveRoot, fs)
    | some realRoot =>
      let realPath := canonTarget realParent path
      if strictCheck realRoot realPath then
        match fs.lstat realPath with
        | none => (some .lstatFail, fs)
        | some d => (none, fs.removeAll realPath d)
      else (some .scope, fs)

/-- C2: `Delete(p, R)` succeeds only when the canonical form of `p` (parent
resolved by `EvalSymlinks`, final component lexical) lies strictly inside the
canonical form of `R`; whenever that boundary condition fails — including when
canonicalization itself fails — it returns an error and leaves the filesystem
unmodified. -/
theorem delete_scope_boundary (fs : FS) (path root : GoPath) :
    ((deleteGo fs path root).1 = none →
      ∃ rp rr, fs.resolve (dirOf path) = some rp ∧ fs.resolve root = some rr ∧
        beneathOrEqual rr (canonTarget rp path) ∧ canonTarget rp path ≠ rr) ∧
    (∀ rp rr, fs.resolve (dirOf path) = some rp → fs.resolve root = some rr →
      ¬(beneathOrEqual rr (canonTarget rp path) ∧ canonTarget rp path ≠ rr) →
      deleteGo fs path root = (some .scope, fs)) ∧
    (fs.resolve (dirOf path) = none →
      deleteGo fs path root = (some .resolveParent, fs)) ∧
    (∀ rp, fs.resolve (dirOf path) = some rp → fs.resolve root = none →
      deleteGo fs path root = (some .resolveRoot, fs)) := by
  refine ⟨?_, ?_, ?_, ?_⟩
  · intro hok
    unfold deleteGo at hok
    cases hrp : fs.resolve (dirOf path) with
    | none => rw [hrp] at hok; simp at hok
    | some rp =>
      rw [hrp] at hok
      cases hrr : fs.resolve root with
      | none => rw [hrr] at hok; simp at hok
      | some rr =>
        rw [hrr] at hok
        simp only at hok
        by_cases hchk : strictCheck rr (canonTarget rp path) = true
        · exact ⟨rp, rr, rfl, rfl, strictCheck_true_beneath _ _ hchk⟩
        · rw [if_neg hchk] at hok
          simp at hok
  · intro rp rr hrp hrr hnot
    unfold deleteGo
    rw [hrp, hrr]
    simp only
    rw [if_neg (fun hchk => hnot (strictCheck_true_beneath _ _ hchk))]
  · intro hrp
    unfold deleteGo
    rw [hrp]
  · intro rp hrp hrr
    unfold deleteGo
    rw [hrp, hrr]

/-! ## Name validation (src/internal/ops/import.go `validateName`)

`filepath.Base` is embedded for the unix separator; the `runtime.GOOS ==
"windows"` backslash branch of `validateName` is dead on the modelled (unix)
platform, so the platform separator is '/'. -/

/-- Embedding of Go's `filepath.Base` (unix): empty input yields ".", then
trailing separators are stripped, the part after the last separator is kept,
and an all-separator input yields "/". -/
def goBase (s : String) : String :=
  if s = "" then "."
  else
    let r := s.data.reverse.dropWhile (fun c => c = '/')
    if r = [] then "/"
    else ⟨(r.takeWhile (fun c => c ≠ '/')).reverse⟩

inductive NameErr where
  | empty
  | dotName
  | sep
  | notSimple
  deriving Repr, DecidableEq

/-- Embedding of `validateName` (src/internal/ops/import.go lines 17–34): the
four rejection conditions in source order, with the separator check
instantiated at the unix separator '/'. -/
def validateName (name : String) : Option NameErr :=
  if name = "" then some .empty
  else if name = "." ∨ name = ".." then some .dotName
  else if name.data.contains '/' then some .sep
  else if goBase name ≠ name then some .notSimple
  else none

/-- C7: `validateName` rejects a name exactly when it is empty, ".", "..",
contains the platform's path separator, or differs from its own base
component; every other name is accepted. -/
theorem validateName_iff (name : String) :
    (validateName name).isSome = true ↔
      (name = "" ∨ name = "." ∨ name = ".." ∨ name.data.contains '/' = true ∨
        goBase name ≠ name) := by
  unfold validateName
  split_ifs with h1 h2 h3 h4 <;>
    simp only [Option.isSome_some, Option.isSome_none] <;> tauto

/-! ## Cancellation at the end of a scan
(src/internal/scanner/parallel.go lines 128–158,
src/unnamed/part_003 lines 169–198)

After `wg.Wait()` both scanners run the identical deterministic tail: check
`ctx.Err()`, return the partial root with the error when the token has fired
— *before* `UpdateSizeRecursiveContext` — and otherwise aggregate bottom-up
and return the root with no error. The fired/not-fired state of the token is
the `cancelled` flag. -/

mutual

/-- Embedding of `DirNode.UpdateSizeRecursiveContext`
(src/unnamed/part_014 lines 180–202): with a fired token it returns at once;
otherwise it aggregates every child directory first and then the node. -/
def updateSizeRecursiveCtx (cancelled : Bool) : TreeNode → TreeNode
  | .file m => .file m
  | .dir m cs ic =>
    if cancelled then .dir m cs ic
    else updateSize (.dir m (updateSizeRecursiveCtxList cancelled cs) ic)

def updateSizeRecursiveCtxList (cancelled : Bool) : List TreeNode → List TreeNode
  | [] => []
  | c :: cs =>
    updateSizeRecursiveCtx cancelled c :: updateSizeRecursiveCtxList cancelled cs

end

/-- Embedding of the post-drain tail of `ParallelScanner.Scan` /
`SFTPScanner.scanWithClient`: the boolean result component records whether an
error (the cancellation) is returned alongside the root. -/
def scanFinish (cancelled : Bool) (root : TreeNode) : TreeNode × Bool :=
  if cancelled then (root, true)
  else (updateSizeRecursiveCtx false root, false)

/-- A concrete partial tree whose aggregation is observable: an unaggregated
root holding one 5-byte file. -/
def exPartialRoot : TreeNode :=
  .dir ⟨"/r", 0, 0, 0, 0, 0⟩ [.file ⟨"a", 5, 5, 0, 0, 0⟩] 0

/-- C4 counterexample: with the cancellation token fired, the scan returns the
partial tree *without* running the bottom-up aggregation — the returned root
still has size 0 although aggregation would assign it size 5 — refuting the
claim that aggregation still runs before returning. -/
theorem scanFinish_cancel_no_aggregation :
    (scanFinish true exPartialRoot).1.getSize = 0 ∧
    (updateSizeRecursiveCtx false exPartialRoot).getSize = 5 ∧
    (scanFinish true exPartialRoot).1 ≠ updateSizeRecursiveCtx false exPartialRoot := by
  refine ⟨rfl, by decide, ?_⟩
  intro h
  have := congrArg TreeNode.getSize h
  rw [show (scanFinish true exPartialRoot).1.getSize = 0 from rfl,
    show (updateSizeRecursiveCtx false exPartialRoot).getSize = 5 from by decide] at this
  exact absurd this (by decide)

/-- C4 (amended): when the cancellation token has fired, the scan returns the
partial tree unchanged — skipping the bottom-up aggregation — together with
the cancellation outcome (the root is the non-nil partial root); only an
uncancelled scan aggregates before returning. -/
theorem scanFinish_cancelled_behavior :
    (∀ root, scanFinish true root = (root, true)) ∧
    (∀ root, scanFinish false root = (updateSizeRecursiveCtx false root, false)) :=
  ⟨fun _ => rfl, fun _ => rfl⟩

/-! ## Remote disk-usage estimation (src/unnamed/part_003
`estimateDiskUsage` / `remoteBlockSize`)

Go `int64` arithmetic wraps on overflow; `wrap64` makes that explicit where
the Go expression `size + blockSize - 1` can overflow. -/

/-- Two's-complement wrap-around of a signed 64-bit computation. -/
def wrap64 (n : Int) : Int := (n + 2 ^ 63) % 2 ^ 64 - 2 ^ 63

def defaultRemoteBlockSize : Int := 4096

/-- Embedding of `estimateDiskUsage` (src/unnamed/part_003 lines 422–431):
non-positive sizes yield 0, a non-positive block size falls back to the 4096
default, and the block count is computed with wrapping int64 arithmetic and
Go's truncating division. -/
def estimateDiskUsage (size blockSize : Int) : Int :=
  if size ≤ 0 then 0
  else
    let b := if blockSize ≤ 0 then defaultRemoteBlockSize else blockSize
    let blocks := Int.tdiv (wrap64 (size + b - 1)) b
    wrap64 (blocks * b)

/-- Embedding of `remoteBlockSize` (src/unnamed/part_003 lines 433–453). The
input models the three capability states of the client: `none` when `StatVFS`
is unsupported, `some none` when it fails or returns nil, and
`some (some (frsize, bsize))` with the two `uint64` fields otherwise. -/
def remoteBlockSize (statvfs : Option (Option (Nat × Nat))) : Int :=
  match statvfs with
  | none => defaultRemoteBlockSize
  | some none => defaultRemoteBlockSize
  | some (some (frsize, bsize)) =>
    if 0 < frsize ∧ (frsize : Int) ≤ maxInt64 then (frsize : Int)
    else if 0 < bsize ∧ (bsize : Int) ≤ maxInt64 then (bsize : Int)
    else defaultRemoteBlockSize

theorem wrap64_eq_self (n : Int) (h1 : minInt64 ≤ n) (h2 : n ≤ maxInt64) :
    wrap64 n = n := by
  unfold wrap64
  simp only [minInt64, maxInt64] at h1 h2
  have hlo : 0 ≤ n + 2 ^ 63 := by omega
  have hhi : n + 2 ^ 63 < 2 ^ 64 := by omega
  rw [Int.emod_eq_of_lt hlo hhi]
  omega

/-- C8 (amended): for a non-negative size and positive block size whose
rounding expression stays inside the signed 64-bit range, the estimate is the
least multiple of the block size that is at least the size (that is,
`ceil(size / B) × B`); a non-positive block size is replaced by the 4096
default, and `remoteBlockSize` falls back to 4096 whenever `StatVFS` is
unsupported, fails, or reports no usable field. -/
theorem estimateDiskUsage_spec :
    (∀ s B : Int, 0 ≤ s → 0 < B → s + B - 1 ≤ maxInt64 →
      ∃ k : Int, estimateDiskUsage s B = k * B ∧ s ≤ k * B ∧ k * B < s + B) ∧
    (∀ s B : Int, B ≤ 0 →
      estimateDiskUsage s B = estimateDiskUsage s defaultRemoteBlockSize) ∧
    remoteBlockSize none = defaultRemoteBlockSize ∧
    remoteBlockSize (some none) = defaultRemoteBlockSize ∧
    (∀ fr bs : Nat, ¬(0 < fr ∧ (fr : Int) ≤ maxInt64) →
      ¬(0 < bs ∧ (bs : Int) ≤ maxInt64) →
      remoteBlockSize (some (some (fr, bs))) = defaultRemoteBlockSize) := by
  refine ⟨?_, ?_, rfl, rfl, ?_⟩
  · intro s B hs hB hrange
    unfold estimateDiskUsage
    by_cases hz : s ≤ 0
    · have hs0 : s = 0 := le_antisymm hz hs
      rw [if_pos hz]
      exact ⟨0, by simp, by simp [hs0], by rw [hs0]; simpa using hB⟩
    · rw [if_neg hz]
      have hBpos : ¬(B ≤ 0) := by omega
      simp only [hBpos, if_false]
      have hin : wrap64 (s + B - 1) = s + B - 1 := by
        refine wrap64_eq_self _ ?_ hrange
        unfold minInt64 maxInt64
        omega
      rw [hin]
      have hcast : Int.tdiv (s + B - 1) B = (s + B - 1) / B :=
        Int.tdiv_eq_ediv (by omega) (by omega)
      set q := (s + B - 1) / B with hq
      have hmod := Int.ediv_add_emod (s + B - 1) B
      have hm0 : 0 ≤ (s + B - 1) % B := Int.emod_nonneg _ (by omega)
      have hm1 : (s + B - 1) % B < B := Int.emod_lt_of_pos _ hB
      have hqB : s ≤ q * B ∧ q * B < s + B := by
        constructor <;> nlinarith [hmod]
      have hwrap2 : wrap64 (q * B) = q * B := by
        refine wrap64_eq_self _ ?_ ?_
        · unfold minInt64 maxInt64
          nlinarith [hqB.1, hqB.2, hs, hB]
        · unfold maxInt64 at hrange ⊢
          omega
      refine ⟨q, ?_, hqB.1, hqB.2⟩
      rw [hcast, hwrap2]
  · intro s B hB
    unfold estimateDiskUsage defaultRemoteBlockSize
    by_cases hz : s ≤ 0
    · simp [hz]
    · have h1 : B ≤ 0 := hB
      have h2 : ¬((4096 : Int) ≤ 0) := by omega
      simp [hz, h1, h2]
  · intro fr bs h1 h2
    show (if 0 < fr ∧ (fr : Int) ≤ maxInt64 then (fr : Int)
      else if 0 < bs ∧ (bs : Int) ≤ maxInt64 then (bs : Int)
      else defaultRemoteBlockSize) = defaultRemoteBlockSize
    rw [if_neg h1, if_neg h2]

/-- C8 counterexample: at the representable int64 inputs
`size = INT64_MAX`, `B = 4096` the Go expression `size + B - 1` wraps, and the
code returns the negative value `4096 - 2^63` instead of the claimed
`ceil(size / B) × B` (which is `2^63`, the least multiple of 4096 at least the
size): the claimed equation fails for these in-range inputs. -/
theorem estimateDiskUsage_overflow_cex :
    estimateDiskUsage maxInt64 4096 = 4096 - 2 ^ 63 ∧
    (maxInt64 + 4096 - 1) / 4096 * 4096 = 2 ^ 63 ∧
    estimateDiskUsage maxInt64 4096 ≠ (maxInt64 + 4096 - 1) / 4096 * 4096 := by
  refine ⟨by decide, by decide, by decide⟩

/-! ## Serializer (src/unnamed/part_012 `exportToWriter`/`writeDir`,
src/internal/ops/import.go `ImportJSON`/`parseDirFromDecoder`)

JSON documents are modelled as values of an inductive type; the streaming
encoder and token decoder of the Go code read and write exactly the document
structure, so they are embedded as functions between trees and JSON values
(numbers carry mathematical integers — the decoder checks the 64-bit ranges
the Go `json` package enforces when decoding into `int64`/`uint64` fields). -/

inductive JVal where
  | jnull
  | jbool (b : Bool)
  | jnum (n : Int)
  | jstr (s : String)
  | jarr (elems : List JVal)
  | jobj (fields : List (String × JVal))

/-- The `ncduEntry` record (src/unnamed/part_012 lines 33–43), with Go zero
values as defaults. -/
structure NcduEntry where
  name : String := ""
  asize : Int := 0
  dsize : Int := 0
  ino : Nat := 0
  nlink : Int := 0
  hlnkc : Bool := false
  readError : Bool := false
  symlink : Bool := false
  usageEstimated : Bool := false
  deriving Repr, DecidableEq

inductive ImpErr where
  | depthLimit
  | notArray
  | emptyDir
  | badEntry
  | badName (e : NameErr)
  | negSize
  | unexpectedChild
  | topLevel
  deriving Repr, DecidableEq

def decodeString : JVal → Except ImpErr String
  | .jstr s => .ok s
  | _ => .error .badEntry

/-- Decoding a JSON number into an `int64` field fails outside the signed
64-bit range. -/
def decodeInt64 : JVal → Except ImpErr Int
  | .jnum n => if minInt64 ≤ n ∧ n ≤ maxInt64 then .ok n else .error .badEntry
  | _ => .error .badEntry

/-- Decoding a JSON number into a `uint64` field. -/
def decodeUint64 : JVal → Except ImpErr Nat
  | .jnum n => if 0 ≤ n ∧ n < 2 ^ 64 then .ok n.toNat else .error .badEntry
  | _ => .error .badEntry

def decodeBool : JVal → Except ImpErr Bool
  | .jbool b => .ok b
  | _ => .error .badEntry

/-- One key of `parseNCDUEntry` (src/internal/ops/import.go lines 227–295):
the switch over the known keys; unknown keys are ignored. -/
def entryStep (e : NcduEntry) (kv : String × JVal) : Except ImpErr NcduEntry :=
  if kv.1 = "name" then (decodeString kv.2).map fun x => { e with name := x }
  else if kv.1 = "asize" then (decodeInt64 kv.2).map fun x => { e with asize := x }
  else if kv.1 = "dsize" then (decodeInt64 kv.2).map fun x => { e with dsize := x }
  else if kv.1 = "ino" then (decodeUint64 kv.2).map fun x => { e with ino := x }
  else if kv.1 = "nlink" then (decodeInt64 kv.2).map fun x => { e with nlink := x }
  else if kv.1 = "hlnkc" then (decodeBool kv.2).map fun x => { e with hlnkc := x }
  else if kv.1 = "read_error" then (decodeBool kv.2).map fun x => { e with readError := x }
  else if kv.1 = "symlink" then (decodeBool kv.2).map fun x => { e with symlink := x }
  else if kv.1 = "usage_estimated" then
    (decodeBool kv.2).map fun x => { e with usageEstimated := x }
  else .ok e

/-- `parseNCDUEntry`: fold the entry object's keys over the zero entry. -/
def parseNCDUEntry (kvs : List (String × JVal)) : Except ImpErr NcduEntry :=
  kvs.foldlM entryStep {}

/-- The flag reconstruction of the decoder (src/internal/ops/import.go lines
127–139 and 186–198). -/
def flagsOfEntry (e : NcduEntry) : Nat :=
  let f : Nat := 0
  let f := if e.hlnkc then f ||| FlagHardlink else f
  let f := if e.readError then f ||| FlagError else f
  let f := if e.symlink then f ||| FlagSymlink else f
  if e.usageEstimated then f ||| FlagUsageEstimated else f

/-- `validateSizeField`: negative sizes are rejected. -/
def validateSizeField (v : Int) : Except ImpErr Unit :=
  if v < 0 then .error .negSize else .ok ()

/-- One element of Go's `filepath.Clean` loop: append a normal element, let
".." pop the previous element when one exists, keep ".." in unrooted paths
with nothing to pop, and drop it at the root. The accumulator holds the output
in reverse. -/
def cleanStep (rooted : Bool) (acc : List String) (c : String) : List String :=
  if c = ".." then
    match acc with
    | x :: rest => if x = ".." then c :: acc else rest
    | [] => if rooted then [] else [".."]
  else c :: acc

/-- Split a character list at every '/' separator, keeping empty segments,
mirroring Go's `strings.Split(s, "/")`. -/
def splitSlashAux : List Char → List Char → List String
  | [], acc => [⟨acc.reverse⟩]
  | c :: rest, acc =>
    if c = '/' then ⟨acc.reverse⟩ :: splitSlashAux rest []
    else splitSlashAux rest (c :: acc)

/-- Join components with the '/' separator, mirroring `strings.Join`. -/
def joinSlash : List String → String
  | [] => ""
  | [c] => c
  | c :: rest => c ++ "/" ++ joinSlash rest

/-- Embedding of Go's `filepath.Clean` (unix): empty input becomes ".", the
elements between separators are processed with `cleanStep` (empty and "."
elements dropped), and the result is rejoined, preserving rootedness. -/
def goClean (s : String) : String :=
  if s = "" then "."
  else
    let rooted := match s.data with | '/' :: _ => true | _ => false
    let comps := (splitSlashAux s.data []).filter
      (fun c => !(c = "") && !(c = "."))
    let out := (comps.foldl (cleanStep rooted) []).reverse
    if rooted then "/" ++ joinSlash out
    else if out = [] then "."
    else joinSlash out

def maxImportDepth : Nat := 1000

mutual

/-- Embedding of `parseDirFromDecoder` (src/internal/ops/import.go lines
98–225): depth guard, array shape, leading entry object, root-name cleaning
versus child-name validation, flag bits, non-negative sizes, children, and a
final `UpdateSize`. The directory node carries the zero `time.Time` and zero
inode, exactly as the code builds it. -/
def parseDir (v : JVal) (isRoot : Bool) (depth : Nat) : Except ImpErr TreeNode :=
  if depth > maxImportDepth then .error .depthLimit
  else
    match v with
    | .jarr [] => .error .emptyDir
    | .jarr (e0 :: rest) =>
      match e0 with
      | .jobj kvs =>
        parseNCDUEntry kvs >>= fun entry =>
        (if isRoot then pure (goClean entry.name)
          else
            match validateName entry.name with
            | some e => Except.error (ImpErr.badName e)
            | none => pure entry.name) >>= fun nm =>
        validateSizeField entry.asize >>= fun _ =>
        validateSizeField entry.dsize >>= fun _ =>
        parseChildren rest depth >>= fun cs =>
        pure (updateSize (.dir ⟨nm, entry.asize, entry.dsize, 0, 0, flagsOfEntry entry⟩ cs 0))
      | _ => .error .badEntry
    | _ => .error .notArray

/-- The child loop of `parseDirFromDecoder` (lines 159–218): an array child is
a subdirectory parsed one level deeper, an object child is a file, anything
else is rejected. -/
def parseChildren (elems : List JVal) (depth : Nat) : Except ImpErr (List TreeNode) :=
  match elems with
  | [] => pure []
  | .jarr es :: cs =>
    parseDir (.jarr es) false (depth + 1) >>= fun d =>
    parseChildren cs depth >>= fun rest =>
    pure (d :: rest)
  | .jobj kvs :: cs =>
    parseNCDUEntry kvs >>= fun fe =>
    (match validateName fe.name with
      | some e => Except.error (ImpErr.badName e)
      | none =>
        validateSizeField fe.asize >>= fun _ =>
        validateSizeField fe.dsize >>= fun _ =>
        parseChildren cs depth >>= fun rest =>
        pure (TreeNode.file ⟨fe.name, fe.asize, fe.dsize, 0, fe.ino, flagsOfEntry fe⟩ :: rest))
  | _ :: _ => .error .unexpectedChild

end

/-- Embedding of `ImportJSON` (src/internal/ops/import.go lines 37–94): the
top-level array must have at least four elements; elements other than the
fourth are decoded and discarded (every JSON value decodes into `any`); the
fourth is the root directory, parsed at depth 0 and aggregated once more. -/
def importJSON (doc : JVal) : Except ImpErr TreeNode :=
  match doc with
  | .jarr es =>
    if es.length < 4 then .error .topLevel
    else
      match es[3]? with
      | none => .error .topLevel
      | some r =>
        parseDir r true 0 >>= fun root =>
        pure (updateSize root)
  | _ => .error .topLevel

/-- An omitted-when-false boolean field (`json:",omitempty"`). -/
def boolFieldOpt (k : String) (b : Bool) : List (String × JVal) :=
  if b then [(k, .jbool true)] else []

/-- An omitted-when-zero numeric field (`json:",omitempty"`). -/
def numFieldOpt (k : String) (n : Int) : List (String × JVal) :=
  if n ≠ 0 then [(k, .jnum n)] else []

/-- The object `json.Marshal` produces for an `ncduEntry` (fields in struct
order; `name` and `asize` always present, the rest `omitempty`; the encoder
never sets `nlink`, so it is always omitted). -/
def entryFields (name : String) (asize dsize : Int) (ino : Nat) (flag : Nat) :
    List (String × JVal) :=
  [("name", JVal.jstr name), ("asize", JVal.jnum asize)]
    ++ numFieldOpt "dsize" dsize
    ++ numFieldOpt "ino" (ino : Int)
    ++ boolFieldOpt "hlnkc" (decide ((flag &&& FlagHardlink) ≠ 0))
    ++ boolFieldOpt "read_error" (decide ((flag &&& FlagError) ≠ 0))
    ++ boolFieldOpt "symlink" (decide ((flag &&& FlagSymlink) ≠ 0))
    ++ boolFieldOpt "usage_estimated" (decide ((flag &&& FlagUsageEstimated) ≠ 0))

mutual

/-- Embedding of `writeDir` (src/unnamed/part_012 lines 143–215): a directory
becomes an array headed by its entry object (aggregated size and usage, flag
bits, no inode) followed by its children; a file becomes its entry object with
its inode. -/
def exportNode : TreeNode → JVal
  | .file m => .jobj (entryFields m.name m.size m.usage m.inode m.flag)
  | .dir m cs _ => .jarr (.jobj (entryFields m.name m.size m.usage 0 m.flag) :: exportList cs)

def exportList : List TreeNode → List JVal
  | [] => []
  | c :: cs => exportNode c :: exportList cs

end

/-- Embedding of `exportToWriter` (src/unnamed/part_012 lines 112–141): the
top-level document `[1, 0, header, rootDir]`. -/
def exportDoc (root : TreeNode) : JVal :=
  .jarr [.jnum 1, .jnum 0,
    .jobj [("progname", .jstr "godu"), ("progver", .jstr "dev"), ("timestamp", .jnum 0)],
    exportNode root]

mutual

/-- The snapshot comparison of spec §8: node names, sizes, usages and flags
agree and the child lists agree recursively (which makes the parent chains
agree); mtimes, inodes and the derived item counts are not part of the
snapshot. -/
def snapEq : TreeNode → TreeNode → Bool
  | .file a, .file b =>
    a.name == b.name && a.size == b.size && a.usage == b.usage && a.flag == b.flag
  | .dir a as _, .dir b bs _ =>
    a.name == b.name && a.size == b.size && a.usage == b.usage && a.flag == b.flag &&
      snapEqList as bs
  | _, _ => false

def snapEqList : List TreeNode → List TreeNode → Bool
  | [], [] => true
  | a :: as, b :: bs => snapEq a b && snapEqList as bs
  | _, _ => false

end

/-- The name condition a walker tree satisfies (spec §3 invariants): the root
name is a cleaned path, every other name is a valid simple entry name. -/
def wfName (isRoot : Bool) (m : FileMeta) : Bool :=
  if isRoot then goClean m.name == m.name else (validateName m.name).isNone

/-- The scalar field ranges of a walker tree node: sizes and usages are
non-negative `int64` values, the inode fits `uint64`, and the flag uses only
the four defined bits. -/
def wfMeta (m : FileMeta) : Bool :=
  decide (0 ≤ m.size) && decide (m.size ≤ maxInt64) &&
  decide (0 ≤ m.usage) && decide (m.usage ≤ maxInt64) &&
  decide (m.inode < 2 ^ 64) &&
  decide (m.flag &&&
    (FlagSymlink ||| FlagError ||| FlagHardlink ||| FlagUsageEstimated) = m.flag)

/-- A directory's stored derived fields agree with `UpdateSize` over its
children (the state after the walker's bottom-up aggregation). -/
def aggregatedDir (m : FileMeta) (cs : List TreeNode) (ic : Int) : Bool :=
  let r := cs.foldl updateSizeStep (0, 0, 0)
  m.size == r.1 && m.usage == r.2.1 && ic == r.2.2

mutual

/-- Wellformedness of a tree as the walker leaves it after aggregation. -/
def wfNode (isRoot : Bool) : TreeNode → Bool
  | .file m => wfName isRoot m && wfMeta m
  | .dir m cs ic =>
    wfName isRoot m && wfMeta m && aggregatedDir m cs ic && wfList cs

def wfList : List TreeNode → Bool
  | [] => true
  | c :: cs => wfNode false c && wfList cs

end

mutual

/-- Directory nesting depth of a tree (1 for a childless directory). -/
def dirDepth : TreeNode → Nat
  | .file _ => 0
  | .dir _ cs _ => 1 + dirDepthList cs

def dirDepthList : List TreeNode → Nat
  | [] => 0
  | c :: cs => max (dirDepth c) (dirDepthList cs)

end

mutual

/-- Array nesting depth of a JSON value. -/
def arrDepth : JVal → Nat
  | .jarr xs => 1 + arrDepthList xs
  | _ => 0

def arrDepthList : List JVal → Nat
  | [] => 0
  | x :: xs => max (arrDepth x) (arrDepthList xs)

end

mutual

/-- Every mtime in the tree is the zero instant. -/
def mtimesZero : TreeNode → Bool
  | .file m => m.mtime == 0
  | .dir m cs _ => m.mtime == 0 && mtimesZeroList cs

def mtimesZeroList : List TreeNode → Bool
  | [] => true
  | c :: cs => mtimesZero c && mtimesZeroList cs

end

/-! ### Except plumbing -/

theorem ok_bind {ε α β : Type} (x : α) (f : α → Except ε β) :
    (Except.ok x >>= f) = f x := rfl

theorem error_bind {ε α β : Type} (e : ε) (f : α → Except ε β) :
    (Except.error e >>= f : Except ε β) = .error e := rfl

theorem pure_bind_except {ε α β : Type} (x : α) (f : α → Except ε β) :
    ((pure x : Except ε α) >>= f) = f x := rfl

theorem bind_eq_ok {ε α β : Type} {a : Except ε α} {f : α → Except ε β} {b : β} :
    a >>= f = .ok b ↔ ∃ x, a = .ok x ∧ f x = .ok b := by
  cases a with
  | error e => rw [error_bind]; simp
  | ok x => rw [ok_bind]; simp

theorem bind_eq_error {ε α β : Type} {a : Except ε α} {f : α → Except ε β} {e : ε} :
    a >>= f = .error e ↔ a = .error e ∨ ∃ x, a = .ok x ∧ f x = .error e := by
  cases a with
  | error e' => rw [error_bind]; simp
  | ok x => rw [ok_bind]; simp

theorem foldlM_entry_append (e : NcduEntry) (l1 l2 : List (String × JVal)) :
    List.foldlM entryStep e (l1 ++ l2) =
      (List.foldlM entryStep e l1) >>= fun x => List.foldlM entryStep x l2 := by
  induction l1 generalizing e with
  | nil =>
    rw [List.nil_append, List.foldlM_nil]
    rfl
  | cons a l1 ih =>
    rw [List.cons_append, List.foldlM_cons, List.foldlM_cons]
    cases h : entryStep e a with
    | error er => rw [error_bind, error_bind, error_bind]
    | ok x => rw [ok_bind, ok_bind, ih]

/-! ### Decoding an encoded entry object -/

theorem foldlM_dsizeOpt (e : NcduEntry) (n : Int)
    (h1 : 0 ≤ n) (h2 : n ≤ maxInt64) (he : e.dsize = 0) :
    List.foldlM entryStep e (numFieldOpt "dsize" n) = .ok { e with dsize := n } := by
  by_cases hn : n = 0
  · subst hn
    show List.foldlM entryStep e [] = _
    rw [List.foldlM_nil]
    cases e
    simp_all
    try rfl
  · show List.foldlM entryStep e (if n ≠ 0 then _ else _) = _
    rw [if_pos hn, List.foldlM_cons]
    have h : entryStep e ("dsize", JVal.jnum n) = .ok { e with dsize := n } := by
      have hmin : minInt64 ≤ n := le_trans (by simp only [minInt64, maxInt64]; omega) h1
      simp [entryStep, decodeInt64, hmin, h2, Except.map]
    rw [h, ok_bind, List.foldlM_nil]
    try rfl

theorem foldlM_inoOpt (e : NcduEntry) (ino : Nat)
    (hi : ino < 2 ^ 64) (he : e.ino = 0) :
    List.foldlM entryStep e (numFieldOpt "ino" (ino : Int)) = .ok { e with ino := ino } := by
  by_cases hn : ino = 0
  · subst hn
    show List.foldlM entryStep e [] = _
    rw [List.foldlM_nil]
    cases e
    simp_all
    try rfl
  · show List.foldlM entryStep e (if (ino : Int) ≠ 0 then _ else _) = _
    rw [if_pos (by exact_mod_cast hn), List.foldlM_cons]
    have hdec : decodeUint64 (JVal.jnum (ino : Int)) = .ok ino := by
      have hc : (0 : Int) ≤ (ino : Int) ∧ (ino : Int) < 2 ^ 64 := by
        constructor
        · exact_mod_cast Nat.zero_le ino
        · exact_mod_cast hi
      simp [decodeUint64, hc]
      omega
    have hstep : entryStep e ("ino", JVal.jnum (ino : Int)) =
        (decodeUint64 (JVal.jnum (ino : Int))).map fun x => { e with ino := x } := by
      simp [entryStep]
    have h : entryStep e ("ino", JVal.jnum (ino : Int)) = .ok { e with ino := ino } := by
      rw [hstep, hdec]
      rfl
    rw [h, ok_bind, List.foldlM_nil]
    try rfl

theorem foldlM_hlnkcOpt (e : NcduEntry) (b : Bool) (he : e.hlnkc = false) :
    List.foldlM entryStep e (boolFieldOpt "hlnkc" b) = .ok { e with hlnkc := b } := by
  cases b with
  | false =>
    show List.foldlM entryStep e [] = _
    rw [List.foldlM_nil]
    cases e
    simp_all
    try rfl
  | true =>
    show List.foldlM entryStep e [("hlnkc", JVal.jbool true)] = _
    rw [List.foldlM_cons]
    have h : entryStep e ("hlnkc", JVal.jbool true) = .ok { e with hlnkc := true } := by
      simp [entryStep, decodeBool, Except.map]
    rw [h, ok_bind, List.foldlM_nil]
    try rfl

theorem foldlM_readErrorOpt (e : NcduEntry) (b : Bool) (he : e.readError = false) :
    List.foldlM entryStep e (boolFieldOpt "read_error" b) = .ok { e with readError := b } := by
  cases b with
  | false =>
    show List.foldlM entryStep e [] = _
    rw [List.foldlM_nil]
    cases e
    simp_all
    try rfl
  | true =>
    show List.foldlM entryStep e [("read_error", JVal.jbool true)] = _
    rw [List.foldlM_cons]
    have h : entryStep e ("read_error", JVal.jbool true) = .ok { e with readError := true } := by
      simp [entryStep, decodeBool, Except.map]
    rw [h, ok_bind, List.foldlM_nil]
    try rfl

theorem foldlM_symlinkOpt (e : NcduEntry) (b : Bool) (he : e.symlink = false) :
    List.foldlM entryStep e (boolFieldOpt "symlink" b) = .ok { e with symlink := b } := by
  cases b with
  | false =>
    show List.foldlM entryStep e [] = _
    rw [List.foldlM_nil]
    cases e
    simp_all
    try rfl
  | true =>
    show List.foldlM entryStep e [("symlink", JVal.jbool true)] = _
    rw [List.foldlM_cons]
    have h : entryStep e ("symlink", JVal.jbool true) = .ok { e with symlink := true } := by
      simp [entryStep, decodeBool, Except.map]
    rw [h, ok_bind, List.foldlM_nil]
    try rfl

theorem foldlM_usageEstimatedOpt (e : NcduEntry) (b : Bool) (he : e.usageEstimated = false) :
    List.foldlM entryStep e (boolFieldOpt "usage_estimated" b) =
      .ok { e with usageEstimated := b } := by
  cases b with
  | false =>
    show List.foldlM entryStep e [] = _
    rw [List.foldlM_nil]
    cases e
    simp_all
    try rfl
  | true =>
    show List.foldlM entryStep e [("usage_estimated", JVal.jbool true)] = _
    rw [List.foldlM_cons]
    have h : entryStep e ("usage_estimated", JVal.jbool true) =
        .ok { e with usageEstimated := true } := by
      simp [entryStep, decodeBool, Except.map]
    rw [h, ok_bind, List.foldlM_nil]
    try rfl

/-- Decoding the exact object the encoder wrote for an entry reconstructs the
entry: names and sizes round-trip, omitted fields come back as their zero
defaults, and the four flag booleans mirror the flag's bits. -/
theorem parseNCDUEntry_entryFields (name : String) (asize dsize : Int) (ino : Nat)
    (flag : Nat)
    (ha1 : 0 ≤ asize) (ha2 : asize ≤ maxInt64)
    (hd1 : 0 ≤ dsize) (hd2 : dsize ≤ maxInt64)
    (hi : ino < 2 ^ 64) :
    parseNCDUEntry (entryFields name asize dsize ino flag) =
      .ok { name := name, asize := asize, dsize := dsize, ino := ino, nlink := 0,
            hlnkc := decide ((flag &&& FlagHardlink) ≠ 0),
            readError := decide ((flag &&& FlagError) ≠ 0),
            symlink := decide ((flag &&& FlagSymlink) ≠ 0),
            usageEstimated := decide ((flag &&& FlagUsageEstimated) ≠ 0) } := by
  unfold parseNCDUEntry entryFields
  simp only [foldlM_entry_append]
  have hname : entryStep {} ("name", JVal.jstr name) =
      .ok ({ name := name } : NcduEntry) := by
    simp [entryStep, decodeString, Except.map]
  have hasize : entryStep { name := name } ("asize", JVal.jnum asize) =
      .ok ({ name := name, asize := asize } : NcduEntry) := by
    have hmin : minInt64 ≤ asize := le_trans (by simp only [minInt64, maxInt64]; omega) ha1
    simp [entryStep, decodeInt64, hmin, ha2, Except.map]
  rw [List.foldlM_cons, hname]
  simp only [ok_bind]
  rw [List.foldlM_cons, hasize]
  simp only [ok_bind]
  rw [List.foldlM_nil]
  simp only [pure_bind_except]
  rw [foldlM_dsizeOpt _ _ hd1 hd2 rfl]
  simp only [ok_bind]
  rw [foldlM_inoOpt _ _ hi rfl]
  simp only [ok_bind]
  rw [foldlM_hlnkcOpt _ _ rfl]
  simp only [ok_bind]
  rw [foldlM_readErrorOpt _ _ rfl]
  simp only [ok_bind]
  rw [foldlM_symlinkOpt _ _ rfl]
  simp only [ok_bind]
  rw [foldlM_usageEstimatedOpt _ _ rfl]

/-- Rebuilding the flag bits from the decoded booleans restores the original
flag, as long as it uses only the four defined bits. -/
theorem flagsOfEntry_restore (flag : Nat)
    (hf : flag &&& (FlagSymlink ||| FlagError ||| FlagHardlink ||| FlagUsageEstimated) = flag)
    (e : NcduEntry)
    (h1 : e.hlnkc = decide ((flag &&& FlagHardlink) ≠ 0))
    (h2 : e.readError = decide ((flag &&& FlagError) ≠ 0))
    (h3 : e.symlink = decide ((flag &&& FlagSymlink) ≠ 0))
    (h4 : e.usageEstimated = decide ((flag &&& FlagUsageEstimated) ≠ 0)) :
    flagsOfEntry e = flag := by
  have hle : flag ≤ 30 := by
    calc flag = flag &&& (FlagSymlink ||| FlagError ||| FlagHardlink |||
        FlagUsageEstimated) := hf.symm
    _ ≤ _ := Nat.and_le_right
  unfold flagsOfEntry
  rw [h1, h2, h3, h4]
  simp only [FlagSymlink, FlagError, FlagHardlink, FlagUsageEstimated] at hf hle ⊢
  interval_cases flag <;> revert hf <;> decide

/-! ### Unfolding equations and error analysis for the decoder -/

theorem map_eq_error {ε α β : Type} {f : α → β} {x : Except ε α} {er : ε} :
    x.map f = .error er ↔ x = .error er := by
  cases x <;> simp [Except.map]

theorem pure_ne_error {ε α : Type} (x : α) (e : ε) :
    (pure x : Except ε α) ≠ .error e := fun h => Except.noConfusion h

theorem ok_ne_error {ε α : Type} (x : α) (e : ε) :
    (Except.ok x : Except ε α) ≠ .error e := fun h => Except.noConfusion h

theorem decodeString_err (v : JVal) (er : ImpErr) (h : decodeString v = .error er) :
    er = .badEntry := by
  cases v
  case jstr s => exact absurd h (ok_ne_error _ _)
  all_goals exact (Except.error.inj h).symm

theorem decodeInt64_err (v : JVal) (er : ImpErr) (h : decodeInt64 v = .error er) :
    er = .badEntry := by
  cases v
  case jnum n =>
    rw [show decodeInt64 (.jnum n) =
      (if minInt64 ≤ n ∧ n ≤ maxInt64 then .ok n else .error .badEntry) from rfl] at h
    split_ifs at h
    exact (Except.error.inj h).symm
  all_goals exact (Except.error.inj h).symm

theorem decodeUint64_err (v : JVal) (er : ImpErr) (h : decodeUint64 v = .error er) :
    er = .badEntry := by
  cases v
  case jnum n =>
    rw [show decodeUint64 (.jnum n) =
      (if 0 ≤ n ∧ n < 2 ^ 64 then .ok n.toNat else .error .badEntry) from rfl] at h
    split_ifs at h
    exact (Except.error.inj h).symm
  all_goals exact (Except.error.inj h).symm

theorem decodeBool_err (v : JVal) (er : ImpErr) (h : decodeBool v = .error er) :
    er = .badEntry := by
  cases v
  case jbool b => exact absurd h (ok_ne_error _ _)
  all_goals exact (Except.error.inj h).symm

theorem entryStep_err (e : NcduEntry) (kv : String × JVal) (er : ImpErr)
    (h : entryStep e kv = .error er) : er = .badEntry := by
  unfold entryStep at h
  split_ifs at h <;>
    first
    | exact decodeString_err _ _ (map_eq_error.mp h)
    | exact decodeInt64_err _ _ (map_eq_error.mp h)
    | exact decodeUint64_err _ _ (map_eq_error.mp h)
    | exact decodeBool_err _ _ (map_eq_error.mp h)
    | exact absurd h (ok_ne_error _ _)

theorem foldlM_entry_err (e : NcduEntry) (kvs : List (String × JVal)) (er : ImpErr)
    (h : List.foldlM entryStep e kvs = .error er) : er = .badEntry := by
  induction kvs generalizing e er with
  | nil =>
    rw [List.foldlM_nil] at h
    exact absurd h (pure_ne_error _ _)
  | cons a l ih =>
    rw [List.foldlM_cons] at h
    rcases bind_eq_error.mp h with h1 | ⟨x, _, h2⟩
    · exact entryStep_err _ _ _ h1
    · exact ih x _ h2

theorem parseNCDUEntry_err (kvs : List (String × JVal)) (er : ImpErr)
    (h : parseNCDUEntry kvs = .error er) : er = .badEntry :=
  foldlM_entry_err _ _ _ h

theorem validateSizeField_err (v : Int) (er : ImpErr)
    (h : validateSizeField v = .error er) : er = .negSize := by
  unfold validateSizeField at h
  split_ifs at h
  exact (Except.error.inj h).symm

theorem parseDir_eq_cons (kvs : List (String × JVal)) (rest : List JVal)
    (isRoot : Bool) (d : Nat) (h : ¬ d > maxImportDepth) :
    parseDir (.jarr (.jobj kvs :: rest)) isRoot d =
      (parseNCDUEntry kvs) >>= fun entry =>
      (if isRoot then pure (goClean entry.name)
        else
          match validateName entry.name with
          | some e => Except.error (ImpErr.badName e)
          | none => pure entry.name) >>= fun nm =>
      validateSizeField entry.asize >>= fun _ =>
      validateSizeField entry.dsize >>= fun _ =>
      parseChildren rest d >>= fun cs =>
      pure (updateSize (.dir ⟨nm, entry.asize, entry.dsize, 0, 0, flagsOfEntry entry⟩ cs 0)) := by
  rw [parseDir.eq_def, if_neg h]

theorem parseDir_depth_exceeded (v : JVal) (isRoot : Bool) (d : Nat)
    (h : d > maxImportDepth) :
    parseDir v isRoot d = .error .depthLimit := by
  rw [parseDir.eq_def, if_pos h]

theorem parseDir_eq_nil (isRoot : Bool) (d : Nat) (h : ¬ d > maxImportDepth) :
    parseDir (.jarr []) isRoot d = .error .emptyDir := by
  rw [parseDir.eq_def, if_neg h]

theorem parseChildren_eq_nil (d : Nat) : parseChildren [] d = pure [] := by
  rw [parseChildren.eq_def]

theorem parseChildren_eq_arr (es : List JVal) (cs : List JVal) (d : Nat) :
    parseChildren (.jarr es :: cs) d =
      parseDir (.jarr es) false (d + 1) >>= fun dd =>
      parseChildren cs d >>= fun rest =>
      pure (dd :: rest) := by
  rw [parseChildren.eq_def]

theorem parseChildren_eq_obj (kvs : List (String × JVal)) (cs : List JVal) (d : Nat) :
    parseChildren (.jobj kvs :: cs) d =
      parseNCDUEntry kvs >>= fun fe =>
      (match validateName fe.name with
        | some e => Except.error (ImpErr.badName e)
        | none =>
          validateSizeField fe.asize >>= fun _ =>
          validateSizeField fe.dsize >>= fun _ =>
          parseChildren cs d >>= fun rest =>
          pure (TreeNode.file ⟨fe.name, fe.asize, fe.dsize, 0, fe.ino, flagsOfEntry fe⟩ :: rest)) := by
  rw [parseChildren.eq_def]

theorem updateSize_idem (t : TreeNode) : updateSize (updateSize t) = updateSize t := by
  cases t with
  | file m => rfl
  | dir m cs ic => simp [updateSize]

/-! ### Snapshot congruence -/

theorem snapEq_fields (a b : TreeNode) (h : snapEq a b = true) :
    a.getName = b.getName ∧ a.getSize = b.getSize ∧ a.getUsage = b.getUsage ∧
      a.getFlag = b.getFlag := by
  cases a <;> cases b <;>
    simp only [snapEq, Bool.and_eq_true, beq_iff_eq] at h
  case file.file ma mb =>
    exact ⟨h.1.1.1, h.1.1.2, h.1.2, h.2⟩
  case dir.dir ma as ia mb bs ib =>
    exact ⟨h.1.1.1.1, h.1.1.1.2, h.1.1.2, h.1.2⟩
  all_goals exact absurd h (by simp)

/-- Snapshot-equal child lists produce the same size accumulator in the
`UpdateSize` fold. -/
theorem foldl_size_snapEq (cs' cs : List TreeNode) (h : snapEqList cs' cs = true) :
    ∀ a : Int,
      cs'.foldl (fun x n => clamp64 (x + n.getSize)) a =
        cs.foldl (fun x n => clamp64 (x + n.getSize)) a := by
  induction cs' generalizing cs with
  | nil =>
    cases cs with
    | nil => intro a; rfl
    | cons b bs => simp [snapEqList] at h
  | cons a' as' ih =>
    cases cs with
    | nil => simp [snapEqList] at h
    | cons b bs =>
      simp only [snapEqList, Bool.and_eq_true] at h
      obtain ⟨hab, hrest⟩ := h
      intro a
      obtain ⟨_, hsz, _, _⟩ := snapEq_fields _ _ hab
      simp only [List.foldl_cons, hsz]
      exact ih bs hrest _

/-- Snapshot-equal child lists produce the same usage accumulator in the
`UpdateSize` fold (item counts are not part of the snapshot and may differ). -/
theorem foldl_usage_snapEq (cs' cs : List TreeNode) (h : snapEqList cs' cs = true) :
    ∀ a : Int,
      cs'.foldl (fun x n => clamp64 (x + n.getUsage)) a =
        cs.foldl (fun x n => clamp64 (x + n.getUsage)) a := by
  induction cs' generalizing cs with
  | nil =>
    cases cs with
    | nil => intro a; rfl
    | cons b bs => simp [snapEqList] at h
  | cons a' as' ih =>
    cases cs with
    | nil => simp [snapEqList] at h
    | cons b bs =>
      simp only [snapEqList, Bool.and_eq_true] at h
      obtain ⟨hab, hrest⟩ := h
      intro a
      obtain ⟨_, _, hus, _⟩ := snapEq_fields _ _ hab
      simp only [List.foldl_cons, hus]
      exact ih bs hrest _

/-! ### The round-trip induction -/

theorem wfMeta_fields (m : FileMeta) (h : wfMeta m = true) :
    0 ≤ m.size ∧ m.size ≤ maxInt64 ∧ 0 ≤ m.usage ∧ m.usage ≤ maxInt64 ∧
      m.inode < 2 ^ 64 ∧
      m.flag &&& (FlagSymlink ||| FlagError ||| FlagHardlink ||| FlagUsageEstimated) =
        m.flag := by
  simp only [wfMeta, Bool.and_eq_true, decide_eq_true_eq] at h
  exact ⟨h.1.1.1.1.1, h.1.1.1.1.2, h.1.1.1.2, h.1.1.2, h.1.2, h.2⟩

/-- The entry record the decoder reconstructs from an encoded entry object. -/
def decodedEntry (name : String) (asize dsize : Int) (ino : Nat) (flag : Nat) :
    NcduEntry :=
  { name := name, asize := asize, dsize := dsize, ino := ino, nlink := 0,
    hlnkc := decide ((flag &&& FlagHardlink) ≠ 0),
    readError := decide ((flag &&& FlagError) ≠ 0),
    symlink := decide ((flag &&& FlagSymlink) ≠ 0),
    usageEstimated := decide ((flag &&& FlagUsageEstimated) ≠ 0) }

theorem decodedEntry_name (name : String) (asize dsize : Int) (ino : Nat) (flag : Nat) :
    (decodedEntry name asize dsize ino flag).name = name := rfl

theorem decodedEntry_asize (name : String) (asize dsize : Int) (ino : Nat) (flag : Nat) :
    (decodedEntry name asize dsize ino flag).asize = asize := rfl

theorem decodedEntry_dsize (name : String) (asize dsize : Int) (ino : Nat) (flag : Nat) :
    (decodedEntry name asize dsize ino flag).dsize = dsize := rfl

theorem decodedEntry_ino (name : String) (asize dsize : Int) (ino : Nat) (flag : Nat) :
    (decodedEntry name asize dsize ino flag).ino = ino := rfl

theorem parseNCDUEntry_decodedEntry (name : String) (asize dsize : Int) (ino : Nat)
    (flag : Nat)
    (ha1 : 0 ≤ asize) (ha2 : asize ≤ maxInt64)
    (hd1 : 0 ≤ dsize) (hd2 : dsize ≤ maxInt64)
    (hi : ino < 2 ^ 64) :
    parseNCDUEntry (entryFields name asize dsize ino flag) =
      .ok (decodedEntry name asize dsize ino flag) :=
  parseNCDUEntry_entryFields name asize dsize ino flag ha1 ha2 hd1 hd2 hi

theorem decodedEntry_flags (name : String) (asize dsize : Int) (ino : Nat) (flag : Nat)
    (hflag : flag &&& (FlagSymlink ||| FlagError ||| FlagHardlink |||
      FlagUsageEstimated) = flag) :
    flagsOfEntry (decodedEntry name asize dsize ino flag) = flag :=
  flagsOfEntry_restore flag hflag _ rfl rfl rfl rfl

theorem wfName_cond (isRoot : Bool) (m : FileMeta) (h : wfName isRoot m = true) :
    if isRoot then goClean m.name = m.name else validateName m.name = none := by
  cases isRoot <;> simp_all [wfName, Option.isNone_iff_eq_none]

/-- The root/non-root name step of the decoder yields the name unchanged when
the name condition of a walker tree holds. -/
theorem nameStep_eq (isRoot : Bool) (nm : String)
    (h : if isRoot then goClean nm = nm else validateName nm = none) :
    (if isRoot then pure (goClean nm)
      else
        match validateName nm with
        | some e => Except.error (ImpErr.badName e)
        | none => pure nm) = (pure nm : Except ImpErr String) := by
  cases isRoot with
  | true =>
    have h' : goClean nm = nm := h
    show (pure (goClean nm) : Except ImpErr String) = pure nm
    rw [h']
  | false =>
    have h' : validateName nm = none := h
    show (match validateName nm with
      | some e => Except.error (ImpErr.badName e)
      | none => pure nm) = (pure nm : Except ImpErr String)
    rw [h']

theorem validateSizeField_ok (v : Int) (h : 0 ≤ v) : validateSizeField v = .ok () := by
  unfold validateSizeField
  rw [if_neg (by omega)]

mutual

/-- Decoding the encoding of a wellformed aggregated directory reproduces it
up to the snapshot comparison, provided the nesting stays within the decoder's
depth budget. -/
theorem parse_export_node (t : TreeNode) (isRoot : Bool) (d : Nat)
    (hdir : t.isDir = true) (hwf : wfNode isRoot t = true)
    (hdep : d + dirDepth t ≤ maxImportDepth + 1) :
    ∃ t', parseDir (exportNode t) isRoot d = .ok t' ∧ snapEq t' t = true := by
  match t with
  | .file m => exact absurd hdir (by simp [TreeNode.isDir])
  | .dir m cs ic =>
    rw [show wfNode isRoot (.dir m cs ic) =
      (wfName isRoot m && wfMeta m && aggregatedDir m cs ic && wfList cs) from rfl] at hwf
    simp only [Bool.and_eq_true] at hwf
    obtain ⟨⟨⟨hname, hmeta⟩, hagg⟩, hlist⟩ := hwf
    obtain ⟨hs1, hs2, hu1, hu2, _, hflag⟩ := wfMeta_fields m hmeta
    rw [show dirDepth (.dir m cs ic) = 1 + dirDepthList cs from by
      simp [dirDepth]] at hdep
    obtain ⟨cs', hcs, hsnap⟩ := parse_export_list cs d hlist (by omega)
    have heq : parseDir (exportNode (.dir m cs ic)) isRoot d =
        .ok (updateSize (.dir ⟨m.name, m.size, m.usage, 0, 0, m.flag⟩ cs' 0)) := by
      rw [show exportNode (.dir m cs ic) =
        .jarr (.jobj (entryFields m.name m.size m.usage 0 m.flag) ::
          exportList cs) from rfl]
      rw [parseDir_eq_cons _ _ _ _ (by omega)]
      rw [parseNCDUEntry_decodedEntry m.name m.size m.usage 0 m.flag hs1 hs2 hu1 hu2
        (by norm_num), ok_bind]
      simp only [decodedEntry_name, decodedEntry_asize, decodedEntry_dsize]
      rw [nameStep_eq isRoot m.name (wfName_cond isRoot m hname), pure_bind_except]
      rw [validateSizeField_ok m.size hs1, ok_bind]
      rw [validateSizeField_ok m.usage hu1, ok_bind]
      rw [hcs, ok_bind]
      rw [decodedEntry_flags m.name m.size m.usage 0 m.flag hflag]
      rfl
    refine ⟨_, heq, ?_⟩
    simp only [aggregatedDir, Bool.and_eq_true, beq_iff_eq] at hagg
    have hzero : minInt64 ≤ (0 : Int) ∧ (0 : Int) ≤ maxInt64 := by
      simp only [minInt64, maxInt64]; omega
    have hsplit' := updateSize_foldl_split cs' 0 0 0 hzero hzero hzero
    have hsplit := updateSize_foldl_split cs 0 0 0 hzero hzero hzero
    have hcong1 := foldl_size_snapEq cs' cs hsnap 0
    have hcong2 := foldl_usage_snapEq cs' cs hsnap 0
    show snapEq (updateSize (.dir ⟨m.name, m.size, m.usage, 0, 0, m.flag⟩ cs' 0))
        (.dir m cs ic) = true
    simp only [updateSize, snapEq, Bool.and_eq_true, beq_iff_eq]
    refine ⟨⟨⟨⟨by trivial, ?_⟩, ?_⟩, by trivial⟩, hsnap⟩
    · have h1' : (cs'.foldl updateSizeStep (0, 0, 0)).1 =
          cs'.foldl (fun x n => clamp64 (x + n.getSize)) 0 := by rw [hsplit']
      have h1 : (cs.foldl updateSizeStep (0, 0, 0)).1 =
          cs.foldl (fun x n => clamp64 (x + n.getSize)) 0 := by rw [hsplit]
      rw [h1', hcong1]
      exact (hagg.1.1.trans h1).symm
    · have h2' : (cs'.foldl updateSizeStep (0, 0, 0)).2.1 =
          cs'.foldl (fun x n => clamp64 (x + n.getUsage)) 0 := by rw [hsplit']
      have h2 : (cs.foldl updateSizeStep (0, 0, 0)).2.1 =
          cs.foldl (fun x n => clamp64 (x + n.getUsage)) 0 := by rw [hsplit]
      rw [h2', hcong2]
      exact (hagg.1.2.trans h2).symm
termination_by sizeOf t

theorem parse_export_list (cs : List TreeNode) (d : Nat)
    (hwf : wfList cs = true) (hdep : d + dirDepthList cs ≤ maxImportDepth) :
    ∃ cs', parseChildren (exportList cs) d = .ok cs' ∧ snapEqList cs' cs = true := by
  match cs with
  | [] =>
    refine ⟨[], ?_, rfl⟩
    rw [show exportList [] = [] from rfl, parseChildren_eq_nil]
    rfl
  | .file m :: rest =>
    rw [show wfList (.file m :: rest) = (wfNode false (.file m) && wfList rest) from rfl]
      at hwf
    simp only [Bool.and_eq_true] at hwf
    obtain ⟨hc, hrest⟩ := hwf
    have hdepr : d + dirDepthList rest ≤ maxImportDepth := by
      have : dirDepthList rest ≤ dirDepthList (.file m :: rest) := by
        simp [dirDepthList]
      omega
    obtain ⟨rest', hprest, hsrest⟩ := parse_export_list rest d hrest hdepr
    rw [show wfNode false (.file m) = (wfName false m && wfMeta m) from rfl] at hc
    simp only [Bool.and_eq_true] at hc
    obtain ⟨hname, hmeta⟩ := hc
    obtain ⟨hs1, hs2, hu1, hu2, hino, hflag⟩ := wfMeta_fields m hmeta
    have hnm : validateName m.name = none := by
      simpa [wfName, Option.isNone_iff_eq_none] using hname
    refine ⟨.file ⟨m.name, m.size, m.usage, 0, m.inode, m.flag⟩ :: rest', ?_, ?_⟩
    · rw [show exportList (.file m :: rest) =
        .jobj (entryFields m.name m.size m.usage m.inode m.flag) ::
          exportList rest from rfl]
      rw [parseChildren_eq_obj]
      rw [parseNCDUEntry_decodedEntry m.name m.size m.usage m.inode m.flag
        hs1 hs2 hu1 hu2 hino, ok_bind]
      simp only [decodedEntry_name, decodedEntry_asize, decodedEntry_dsize,
        decodedEntry_ino, hnm]
      rw [validateSizeField_ok m.size hs1, ok_bind]
      rw [validateSizeField_ok m.usage hu1, ok_bind]
      rw [hprest, ok_bind]
      rw [decodedEntry_flags m.name m.size m.usage m.inode m.flag hflag]
      rfl
    · simp only [snapEqList, snapEq, Bool.and_eq_true, beq_iff_eq]
      exact ⟨⟨⟨⟨by trivial, by trivial⟩, by trivial⟩, by trivial⟩, hsrest⟩
  | .dir md cds icd :: rest =>
    rw [show wfList (.dir md cds icd :: rest) =
      (wfNode false (.dir md cds icd) && wfList rest) from rfl] at hwf
    simp only [Bool.and_eq_true] at hwf
    obtain ⟨hc, hrest⟩ := hwf
    have hdepr : d + dirDepthList rest ≤ maxImportDepth := by
      have : dirDepthList rest ≤ dirDepthList (.dir md cds icd :: rest) := by
        simp [dirDepthList]
      omega
    obtain ⟨rest', hprest, hsrest⟩ := parse_export_list rest d hrest hdepr
    have hdepc : (d + 1) + dirDepth (.dir md cds icd) ≤ maxImportDepth + 1 := by
      have : dirDepth (.dir md cds icd) ≤ dirDepthList (.dir md cds icd :: rest) := by
        simp [dirDepthList]
      omega
    obtain ⟨c', hpc, hsc⟩ := parse_export_node (.dir md cds icd) false (d + 1)
      (by simp [TreeNode.isDir]) hc hdepc
    refine ⟨c' :: rest', ?_, ?_⟩
    · have hx : exportNode (.dir md cds icd) =
          .jarr (.jobj (entryFields md.name md.size md.usage 0 md.flag) ::
            exportList cds) := by
        simp [exportNode]
      rw [show exportList (.dir md cds icd :: rest) =
        exportNode (.dir md cds icd) :: exportList rest from rfl]
      rw [hx, parseChildren_eq_arr, ← hx, hpc, ok_bind, hprest, ok_bind]
      rfl
    · simp only [snapEqList, Bool.and_eq_true]
      exact ⟨hsc, hsrest⟩
termination_by sizeOf cs

end

theorem error_ne_ok {ε α : Type} {e : ε} {x : α} :
    (Except.error e : Except ε α) ≠ .ok x := fun h => Except.noConfusion h

/-- Every directory the decoder returns has just been aggregated, so a second
`UpdateSize` is a no-op. -/
theorem parseDir_ok_updateSize (v : JVal) (r : Bool) (d : Nat) (t : TreeNode)
    (h : parseDir v r d = .ok t) : updateSize t = t := by
  by_cases hd : d > maxImportDepth
  · rw [parseDir_depth_exceeded _ _ _ hd] at h
    exact absurd h error_ne_ok
  · cases v with
    | jarr es =>
      cases es with
      | nil =>
        rw [parseDir_eq_nil _ _ hd] at h
        exact absurd h error_ne_ok
      | cons e0 rest =>
        cases e0 with
        | jobj kvs =>
          rw [parseDir_eq_cons _ _ _ _ hd] at h
          rcases bind_eq_ok.mp h with ⟨entry, _, h⟩
          rcases bind_eq_ok.mp h with ⟨nm, _, h⟩
          rcases bind_eq_ok.mp h with ⟨u1, _, h⟩
          rcases bind_eq_ok.mp h with ⟨u2, _, h⟩
          rcases bind_eq_ok.mp h with ⟨cs, _, h⟩
          have ht : updateSize (.dir ⟨nm, entry.asize, entry.dsize, 0, 0,
              flagsOfEntry entry⟩ cs 0) = t := Except.ok.inj h
          rw [← ht, updateSize_idem]
        | jnull => rw [parseDir.eq_def, if_neg hd] at h; exact absurd h error_ne_ok
        | jbool b => rw [parseDir.eq_def, if_neg hd] at h; exact absurd h error_ne_ok
        | jnum n => rw [parseDir.eq_def, if_neg hd] at h; exact absurd h error_ne_ok
        | jstr st => rw [parseDir.eq_def, if_neg hd] at h; exact absurd h error_ne_ok
        | jarr es2 => rw [parseDir.eq_def, if_neg hd] at h; exact absurd h error_ne_ok
    | jnull => rw [parseDir.eq_def, if_neg hd] at h; exact absurd h error_ne_ok
    | jbool b => rw [parseDir.eq_def, if_neg hd] at h; exact absurd h error_ne_ok
    | jnum n => rw [parseDir.eq_def, if_neg hd] at h; exact absurd h error_ne_ok
    | jstr st => rw [parseDir.eq_def, if_neg hd] at h; exact absurd h error_ne_ok
    | jobj kvs => rw [parseDir.eq_def, if_neg hd] at h; exact absurd h error_ne_ok

theorem importJSON_exportDoc (t : TreeNode) :
    importJSON (exportDoc t) =
      parseDir (exportNode t) true 0 >>= fun root => pure (updateSize root) := rfl

/-- C3 (amended): for every walker-shaped aggregated tree whose directory
nesting does not exceed the decoder's depth budget of 1001 levels, decoding
the encoding yields a tree equal to the original under the snapshot
comparison (names, sizes, usages, flags, and the parent chains the nesting
represents). -/
theorem export_import_roundtrip (t : TreeNode)
    (hdir : t.isDir = true) (hwf : wfNode true t = true)
    (hdepth : dirDepth t ≤ maxImportDepth + 1) :
    ∃ t', importJSON (exportDoc t) = .ok t' ∧ snapEq t' t = true := by
  obtain ⟨t', hp, hs⟩ := parse_export_node t true 0 hdir hwf (by omega)
  refine ⟨t', ?_, hs⟩
  rw [importJSON_exportDoc, hp, ok_bind, parseDir_ok_updateSize _ _ _ _ hp]
  rfl

/-! ### Imported trees carry the zero mtime -/

theorem mtimesZero_updateSize (t : TreeNode) :
    mtimesZero (updateSize t) = mtimesZero t := by
  cases t with
  | file m => rfl
  | dir m cs ic => simp [updateSize, mtimesZero]

mutual

theorem parseDir_mtimesZero (v : JVal) (r : Bool) (d : Nat) (t : TreeNode)
    (h : parseDir v r d = .ok t) : mtimesZero t = true := by
  by_cases hd : d > maxImportDepth
  · rw [parseDir_depth_exceeded _ _ _ hd] at h
    exact absurd h error_ne_ok
  · match v with
    | .jarr (.jobj kvs :: rest) =>
      rw [parseDir_eq_cons _ _ _ _ hd] at h
      rcases bind_eq_ok.mp h with ⟨entry, _, h⟩
      rcases bind_eq_ok.mp h with ⟨nm, _, h⟩
      rcases bind_eq_ok.mp h with ⟨u1, _, h⟩
      rcases bind_eq_ok.mp h with ⟨u2, _, h⟩
      rcases bind_eq_ok.mp h with ⟨cs, hcs, h⟩
      have ht : updateSize (.dir ⟨nm, entry.asize, entry.dsize, 0, 0,
          flagsOfEntry entry⟩ cs 0) = t := Except.ok.inj h
      rw [← ht, mtimesZero_updateSize]
      rw [show mtimesZero (.dir ⟨nm, entry.asize, entry.dsize, 0, 0,
        flagsOfEntry entry⟩ cs 0) = (((0 : Int) == 0) && mtimesZeroList cs) from rfl]
      rw [parseChildren_mtimesZero rest d cs hcs]
      rfl
    | .jarr [] =>
      rw [parseDir_eq_nil _ _ hd] at h
      exact absurd h error_ne_ok
    | .jarr (.jnull :: rest) =>
      rw [parseDir.eq_def, if_neg hd] at h; exact absurd h error_ne_ok
    | .jarr (.jbool b :: rest) =>
      rw [parseDir.eq_def, if_neg hd] at h; exact absurd h error_ne_ok
    | .jarr (.jnum n :: rest) =>
      rw [parseDir.eq_def, if_neg hd] at h; exact absurd h error_ne_ok
    | .jarr (.jstr st :: rest) =>
      rw [parseDir.eq_def, if_neg hd] at h; exact absurd h error_ne_ok
    | .jarr (.jarr es2 :: rest) =>
      rw [parseDir.eq_def, if_neg hd] at h; exact absurd h error_ne_ok
    | .jnull => rw [parseDir.eq_def, if_neg hd] at h; exact absurd h error_ne_ok
    | .jbool b => rw [parseDir.eq_def, if_neg hd] at h; exact absurd h error_ne_ok
    | .jnum n => rw [parseDir.eq_def, if_neg hd] at h; exact absurd h error_ne_ok
    | .jstr st => rw [parseDir.eq_def, if_neg hd] at h; exact absurd h error_ne_ok
    | .jobj kvs => rw [parseDir.eq_def, if_neg hd] at h; exact absurd h error_ne_ok
termination_by sizeOf v

theorem parseChildren_mtimesZero (elems : List JVal) (d : Nat) (cs : List TreeNode)
    (h : parseChildren elems d = .ok cs) : mtimesZeroList cs = true := by
  match elems with
  | [] =>
    rw [parseChildren_eq_nil] at h
    have : ([] : List TreeNode) = cs := Except.ok.inj h
    rw [← this]
    rfl
  | .jarr es :: rest =>
    rw [parseChildren_eq_arr] at h
    rcases bind_eq_ok.mp h with ⟨dd, hdd, h⟩
    rcases bind_eq_ok.mp h with ⟨rest', hrest, h⟩
    have : dd :: rest' = cs := Except.ok.inj h
    rw [← this]
    rw [show mtimesZeroList (dd :: rest') =
      (mtimesZero dd && mtimesZeroList rest') from rfl]
    rw [parseDir_mtimesZero _ _ _ _ hdd, parseChildren_mtimesZero rest d rest' hrest]
    rfl
  | .jobj kvs :: rest =>
    rw [parseChildren_eq_obj] at h
    rcases bind_eq_ok.mp h with ⟨fe, hfe, h⟩
    cases hv : validateName fe.name with
    | some e => rw [hv] at h; exact absurd h error_ne_ok
    | none =>
      rw [hv] at h
      rcases bind_eq_ok.mp h with ⟨u1, _, h⟩
      rcases bind_eq_ok.mp h with ⟨u2, _, h⟩
      rcases bind_eq_ok.mp h with ⟨rest', hrest, h⟩
      have : TreeNode.file ⟨fe.name, fe.asize, fe.dsize, 0, fe.ino, flagsOfEntry fe⟩ ::
          rest' = cs := Except.ok.inj h
      rw [← this]
      rw [show mtimesZeroList (TreeNode.file ⟨fe.name, fe.asize, fe.dsize, 0, fe.ino,
        flagsOfEntry fe⟩ :: rest') =
        (((0 : Int) == 0) && mtimesZeroList rest') from rfl]
      rw [parseChildren_mtimesZero rest d rest' hrest]
      rfl
  | .jnull :: rest =>
    rw [parseChildren.eq_def] at h; exact absurd h error_ne_ok
  | .jbool b :: rest =>
    rw [parseChildren.eq_def] at h; exact absurd h error_ne_ok
  | .jnum n :: rest =>
    rw [parseChildren.eq_def] at h; exact absurd h error_ne_ok
  | .jstr st :: rest =>
    rw [parseChildren.eq_def] at h; exact absurd h error_ne_ok
termination_by sizeOf elems

end

/-- C9: every tree `ImportJSON` returns has the zero mtime on every node —
the decoder never reconstructs modification times, so mtime does not survive
an encode-then-decode round trip. -/
theorem importJSON_mtimes_zero (doc : JVal) (t : TreeNode)
    (h : importJSON doc = .ok t) : mtimesZero t = true := by
  cases doc with
  | jarr es =>
    rw [importJSON.eq_def] at h
    simp only at h
    split_ifs at h with hlen
    cases hget : es[3]? with
    | none => rw [hget] at h; exact absurd h error_ne_ok
    | some r =>
      rw [hget] at h
      rcases bind_eq_ok.mp h with ⟨root, hroot, h⟩
      have : updateSize root = t := Except.ok.inj h
      rw [← this, mtimesZero_updateSize]
      exact parseDir_mtimesZero _ _ _ _ hroot
  | jnull => rw [importJSON.eq_def] at h; exact absurd h error_ne_ok
  | jbool b => rw [importJSON.eq_def] at h; exact absurd h error_ne_ok
  | jnum n => rw [importJSON.eq_def] at h; exact absurd h error_ne_ok
  | jstr st => rw [importJSON.eq_def] at h; exact absurd h error_ne_ok
  | jobj kvs => rw [importJSON.eq_def] at h; exact absurd h error_ne_ok

/-! ### The depth limit, characterized -/

theorem arrDepth_le_of_mem (x : JVal) (xs : List JVal) (h : x ∈ xs) :
    arrDepth x ≤ arrDepthList xs := by
  induction xs with
  | nil => cases h
  | cons a l ih =>
    rcases List.mem_cons.mp h with rfl | h'
    · rw [show arrDepthList (x :: l) = max (arrDepth x) (arrDepthList l) from rfl]
      exact Nat.le_max_left _ _
    · rw [show arrDepthList (a :: l) = max (arrDepth a) (arrDepthList l) from rfl]
      exact le_trans (ih h') (Nat.le_max_right _ _)

mutual

/-- The decoder never reports the depth error on a document whose array
nesting stays within the budget (root at depth 0, check `depth > 1000`). -/
theorem parseDir_no_depthErr (v : JVal) (r : Bool) (d : Nat)
    (h1 : d ≤ maxImportDepth) (h2 : d + arrDepth v ≤ maxImportDepth + 1) :
    parseDir v r d ≠ .error .depthLimit := by
  match v with
  | .jarr (.jobj kvs :: rest) =>
    intro h
    rw [parseDir_eq_cons _ _ _ _ (by omega)] at h
    have harr : arrDepth (.jarr (.jobj kvs :: rest)) =
        1 + arrDepthList (.jobj kvs :: rest) := rfl
    rcases bind_eq_error.mp h with he | ⟨entry, _, h⟩
    · exact ImpErr.noConfusion (parseNCDUEntry_err _ _ he)
    rcases bind_eq_error.mp h with he | ⟨nm, _, h⟩
    · cases r with
      | true => exact absurd he (pure_ne_error _ _)
      | false =>
        cases hv : validateName entry.name with
        | some e =>
          rw [hv] at he
          exact ImpErr.noConfusion (Except.error.inj he)
        | none => rw [hv] at he; exact absurd he (pure_ne_error _ _)
    rcases bind_eq_error.mp h with he | ⟨u1, _, h⟩
    · exact ImpErr.noConfusion (validateSizeField_err _ _ he)
    rcases bind_eq_error.mp h with he | ⟨u2, _, h⟩
    · exact ImpErr.noConfusion (validateSizeField_err _ _ he)
    rcases bind_eq_error.mp h with he | ⟨cs, _, h⟩
    · have hlist : arrDepthList rest ≤ arrDepthList (JVal.jobj kvs :: rest) := by
        rw [show arrDepthList (JVal.jobj kvs :: rest) =
          max (arrDepth (.jobj kvs)) (arrDepthList rest) from rfl]
        exact Nat.le_max_right _ _
      exact parseChildren_no_depthErr rest d (by rw [harr] at h2; omega) he
    · exact absurd h (pure_ne_error _ _)
  | .jarr [] =>
    intro h
    rw [parseDir_eq_nil _ _ (by omega)] at h
    exact ImpErr.noConfusion (Except.error.inj h)
  | .jarr (.jnull :: rest) =>
    intro h
    rw [parseDir.eq_def, if_neg (by omega)] at h
    exact ImpErr.noConfusion (Except.error.inj h)
  | .jarr (.jbool b :: rest) =>
    intro h
    rw [parseDir.eq_def, if_neg (by omega)] at h
    exact ImpErr.noConfusion (Except.error.inj h)
  | .jarr (.jnum n :: rest) =>
    intro h
    rw [parseDir.eq_def, if_neg (by omega)] at h
    exact ImpErr.noConfusion (Except.error.inj h)
  | .jarr (.jstr st :: rest) =>
    intro h
    rw [parseDir.eq_def, if_neg (by omega)] at h
    exact ImpErr.noConfusion (Except.error.inj h)
  | .jarr (.jarr es2 :: rest) =>
    intro h
    rw [parseDir.eq_def, if_neg (by omega)] at h
    exact ImpErr.noConfusion (Except.error.inj h)
  | .jnull =>
    intro h
    rw [parseDir.eq_def, if_neg (by omega)] at h
    exact ImpErr.noConfusion (Except.error.inj h)
  | .jbool b =>
    intro h
    rw [parseDir.eq_def, if_neg (by omega)] at h
    exact ImpErr.noConfusion (Except.error.inj h)
  | .jnum n =>
    intro h
    rw [parseDir.eq_def, if_neg (by omega)] at h
    exact ImpErr.noConfusion (Except.error.inj h)
  | .jstr st =>
    intro h
    rw [parseDir.eq_def, if_neg (by omega)] at h
    exact ImpErr.noConfusion (Except.error.inj h)
  | .jobj kvs =>
    intro h
    rw [parseDir.eq_def, if_neg (by omega)] at h
    exact ImpErr.noConfusion (Except.error.inj h)
termination_by sizeOf v

theorem parseChildren_no_depthErr (elems : List JVal) (d : Nat)
    (h : d + arrDepthList elems ≤ maxImportDepth) :
    parseChildren elems d ≠ .error .depthLimit := by
  match elems with
  | [] =>
    intro he
    rw [parseChildren_eq_nil] at he
    exact absurd he (pure_ne_error _ _)
  | .jarr es :: rest =>
    intro he
    have hmem : arrDepth (.jarr es) ≤ arrDepthList (JVal.jarr es :: rest) :=
      arrDepth_le_of_mem _ _ (List.mem_cons_self _ _)
    have hrest : arrDepthList rest ≤ arrDepthList (JVal.jarr es :: rest) := by
      rw [show arrDepthList (JVal.jarr es :: rest) =
        max (arrDepth (.jarr es)) (arrDepthList rest) from rfl]
      exact Nat.le_max_right _ _
    have hone : 1 ≤ arrDepth (.jarr es) := by
      rw [show arrDepth (.jarr es) = 1 + arrDepthList es from rfl]
      omega
    rw [parseChildren_eq_arr] at he
    rcases bind_eq_error.mp he with hd | ⟨dd, _, he⟩
    · exact parseDir_no_depthErr (.jarr es) false (d + 1) (by omega) (by omega) hd
    rcases bind_eq_error.mp he with hr | ⟨rest', _, he⟩
    · exact parseChildren_no_depthErr rest d (by omega) hr
    · exact absurd he (pure_ne_error _ _)
  | .jobj kvs :: rest =>
    intro he
    have hrest : arrDepthList rest ≤ arrDepthList (JVal.jobj kvs :: rest) := by
      rw [show arrDepthList (JVal.jobj kvs :: rest) =
        max (arrDepth (.jobj kvs)) (arrDepthList rest) from rfl]
      exact Nat.le_max_right _ _
    rw [parseChildren_eq_obj] at he
    rcases bind_eq_error.mp he with hf | ⟨fe, _, he⟩
    · exact ImpErr.noConfusion (parseNCDUEntry_err _ _ hf)
    cases hv : validateName fe.name with
    | some e =>
      rw [hv] at he
      exact ImpErr.noConfusion (Except.error.inj he)
    | none =>
      rw [hv] at he
      rcases bind_eq_error.mp he with hx1 | ⟨u1, _, he⟩
      · exact ImpErr.noConfusion (validateSizeField_err _ _ hx1)
      rcases bind_eq_error.mp he with hx2 | ⟨u2, _, he⟩
      · exact ImpErr.noConfusion (validateSizeField_err _ _ hx2)
      rcases bind_eq_error.mp he with hx3 | ⟨rest', _, he⟩
      · exact parseChildren_no_depthErr rest d (by omega) hx3
      · exact absurd he (pure_ne_error _ _)
  | .jnull :: rest =>
    intro he
    rw [parseChildren.eq_def] at he
    exact ImpErr.noConfusion (Except.error.inj he)
  | .jbool b :: rest =>
    intro he
    rw [parseChildren.eq_def] at he
    exact ImpErr.noConfusion (Except.error.inj he)
  | .jnum n :: rest =>
    intro he
    rw [parseChildren.eq_def] at he
    exact ImpErr.noConfusion (Except.error.inj he)
  | .jstr st :: rest =>
    intro he
    rw [parseChildren.eq_def] at he
    exact ImpErr.noConfusion (Except.error.inj he)
termination_by sizeOf elems

end

/-- No document whose overall array nesting (the top-level array included)
stays within 1002 is ever rejected for depth. -/
theorem importJSON_no_depthErr (doc : JVal)
    (h : arrDepth doc ≤ maxImportDepth + 2) :
    importJSON doc ≠ .error .depthLimit := by
  intro he
  cases doc with
  | jarr es =>
    rw [importJSON.eq_def] at he
    simp only at he
    split_ifs at he with hlen
    · exact ImpErr.noConfusion (Except.error.inj he)
    · cases hget : es[3]? with
      | none => rw [hget] at he; exact ImpErr.noConfusion (Except.error.inj he)
      | some r =>
        rw [hget] at he
        rcases bind_eq_error.mp he with hr | ⟨root, _, he⟩
        · have hm : r ∈ es := by
            have := List.getElem?_eq_some_iff.mp hget
            obtain ⟨hlt, hr⟩ := this
            exact hr ▸ List.getElem_mem hlt
          have : arrDepth r ≤ arrDepthList es := arrDepth_le_of_mem _ _ hm
          have harr : arrDepth (.jarr es) = 1 + arrDepthList es := rfl
          exact parseDir_no_depthErr r true 0 (by omega) (by rw [harr] at h; omega) hr
        · exact absurd he (pure_ne_error _ _)
  | jnull => rw [importJSON.eq_def] at he; exact ImpErr.noConfusion (Except.error.inj he)
  | jbool b => rw [importJSON.eq_def] at he; exact ImpErr.noConfusion (Except.error.inj he)
  | jnum n => rw [importJSON.eq_def] at he; exact ImpErr.noConfusion (Except.error.inj he)
  | jstr st => rw [importJSON.eq_def] at he; exact ImpErr.noConfusion (Except.error.inj he)
  | jobj kvs => rw [importJSON.eq_def] at he; exact ImpErr.noConfusion (Except.error.inj he)

/-! ### A deep walker tree -/

/-- A chain of `n + 1` nested directories named "d", with aggregated derived
fields (all sizes zero, item count equal to the number of descendants). -/
def deepChain : Nat → TreeNode
  | 0 => .dir ⟨"d", 0, 0, 0, 0, 0⟩ [] 0
  | n + 1 => .dir ⟨"d", 0, 0, 0, 0, 0⟩ [deepChain n] ((n : Int) + 1)

/-- A cleaned absolute root above a `deepChain`: `n + 2` directory levels. -/
def deepRoot (n : Nat) : TreeNode :=
  .dir ⟨"/r", 0, 0, 0, 0, 0⟩ [deepChain n] ((n : Int) + 1)

theorem satAdd_in_range (a b : Int) (ha : minInt64 ≤ a) (ha2 : a ≤ maxInt64)
    (hb : minInt64 ≤ a + b) (hb2 : a + b ≤ maxInt64) :
    saturatingAddInt64 a b = a + b := by
  rw [saturatingAddInt64_eq_clamp a b ha ha2]
  unfold clamp64
  rw [if_neg (by omega), if_neg (by omega)]

theorem deepChain_step (j : Nat) (hj : (j : Int) + 2 ≤ maxInt64) :
    updateSizeStep (0, 0, 0) (deepChain j) = (0, 0, (j : Int) + 1) := by
  have hmin : minInt64 < 0 := by simp only [minInt64, maxInt64]; omega
  have hmax : 0 < maxInt64 := by simp only [minInt64, maxInt64]; omega
  cases j with
  | zero => decide
  | succ i =>
    have hred : updateSizeStep (0, 0, 0)
        (.dir ⟨"d", 0, 0, 0, 0, 0⟩ [deepChain i] ((i : Int) + 1)) =
        (saturatingAddInt64 0 0, saturatingAddInt64 0 0,
          saturatingAddInt64 (saturatingAddInt64 0 ((i : Int) + 1)) 1) := rfl
    show updateSizeStep (0, 0, 0)
      (.dir ⟨"d", 0, 0, 0, 0, 0⟩ [deepChain i] ((i : Int) + 1)) = _
    push_cast at hj
    rw [hred]
    rw [satAdd_in_range 0 0 (by omega) (by omega) (by omega) (by omega)]
    rw [satAdd_in_range 0 ((i : Int) + 1) (by omega) (by omega)
      (by have : (0 : Int) ≤ (i : Int) := Int.natCast_nonneg i; omega)
      (by omega)]
    rw [satAdd_in_range (0 + ((i : Int) + 1)) 1
      (by have : (0 : Int) ≤ (i : Int) := Int.natCast_nonneg i; omega)
      (by omega)
      (by have : (0 : Int) ≤ (i : Int) := Int.natCast_nonneg i; omega)
      (by omega)]
    simp only [Prod.mk.injEq]
    refine ⟨by ring, by ring, by push_cast; ring⟩

theorem wf_deepChain (n : Nat) : (n : Int) + 2 ≤ maxInt64 →
    wfNode false (deepChain n) = true := by
  induction n with
  | zero =>
    intro _
    decide
  | succ k ih =>
    intro hn
    have hk : (k : Int) + 2 ≤ maxInt64 := by push_cast at hn ⊢; omega
    show wfNode false (.dir ⟨"d", 0, 0, 0, 0, 0⟩ [deepChain k] ((k : Int) + 1)) = true
    rw [show wfNode false (.dir ⟨"d", 0, 0, 0, 0, 0⟩ [deepChain k] ((k : Int) + 1)) =
      (wfName false ⟨"d", 0, 0, 0, 0, 0⟩ && wfMeta ⟨"d", 0, 0, 0, 0, 0⟩ &&
        aggregatedDir ⟨"d", 0, 0, 0, 0, 0⟩ [deepChain k] ((k : Int) + 1) &&
        wfList [deepChain k]) from rfl]
    have h3 : aggregatedDir ⟨"d", 0, 0, 0, 0, 0⟩ [deepChain k] ((k : Int) + 1)
        = true := by
      unfold aggregatedDir
      rw [show ([deepChain k].foldl updateSizeStep (0, 0, 0)) =
        updateSizeStep (0, 0, 0) (deepChain k) from rfl]
      rw [deepChain_step k hk]
      simp
    have h4 : wfList [deepChain k] = true := by
      rw [show wfList [deepChain k] =
        (wfNode false (deepChain k) && wfList []) from rfl]
      rw [ih hk]
      rfl
    rw [h3, h4]
    decide

theorem wf_deepRoot (n : Nat) (hn : (n : Int) + 2 ≤ maxInt64) :
    wfNode true (deepRoot n) = true := by
  show wfNode true (.dir ⟨"/r", 0, 0, 0, 0, 0⟩ [deepChain n] ((n : Int) + 1)) = true
  rw [show wfNode true (.dir ⟨"/r", 0, 0, 0, 0, 0⟩ [deepChain n] ((n : Int) + 1)) =
    (wfName true ⟨"/r", 0, 0, 0, 0, 0⟩ && wfMeta ⟨"/r", 0, 0, 0, 0, 0⟩ &&
      aggregatedDir ⟨"/r", 0, 0, 0, 0, 0⟩ [deepChain n] ((n : Int) + 1) &&
      wfList [deepChain n]) from rfl]
  have h3 : aggregatedDir ⟨"/r", 0, 0, 0, 0, 0⟩ [deepChain n] ((n : Int) + 1)
      = true := by
    unfold aggregatedDir
    rw [show ([deepChain n].foldl updateSizeStep (0, 0, 0)) =
      updateSizeStep (0, 0, 0) (deepChain n) from rfl]
    rw [deepChain_step n hn]
    simp
  have h4 : wfList [deepChain n] = true := by
    rw [show wfList [deepChain n] =
      (wfNode false (deepChain n) && wfList []) from rfl]
    rw [wf_deepChain n hn]
    rfl
  rw [h3, h4]
  decide

theorem dirDepth_deepChain (n : Nat) : dirDepth (deepChain n) = n + 1 := by
  induction n with
  | zero => rfl
  | succ k ih =>
    show dirDepth (.dir ⟨"d", 0, 0, 0, 0, 0⟩ [deepChain k] ((k : Int) + 1)) = k + 2
    rw [show dirDepth (.dir ⟨"d", 0, 0, 0, 0, 0⟩ [deepChain k] ((k : Int) + 1)) =
      1 + max (dirDepth (deepChain k)) 0 from rfl]
    rw [ih]
    omega

theorem dirDepth_deepRoot (n : Nat) : dirDepth (deepRoot n) = n + 2 := by
  show dirDepth (.dir ⟨"/r", 0, 0, 0, 0, 0⟩ [deepChain n] ((n : Int) + 1)) = n + 2
  rw [show dirDepth (.dir ⟨"/r", 0, 0, 0, 0, 0⟩ [deepChain n] ((n : Int) + 1)) =
    1 + max (dirDepth (deepChain n)) 0 from rfl]
  rw [dirDepth_deepChain]
  omega

/-- Parsing the export of a chain that reaches past the depth budget fails
with the depth error. -/
theorem parseDir_deepChain_fails (n : Nat) : ∀ d : Nat, d ≤ maxImportDepth →
    maxImportDepth + 1 ≤ d + n →
    parseDir (exportNode (deepChain n)) false d = .error .depthLimit := by
  induction n with
  | zero =>
    intro d hd hn
    exact absurd hn (by omega)
  | succ k ih =>
    intro d hd hn
    rw [show exportNode (deepChain (k + 1)) =
      .jarr (.jobj (entryFields "d" 0 0 0 0) ::
        exportList [deepChain k]) from rfl]
    rw [parseDir_eq_cons _ _ _ _ (by omega)]
    rw [parseNCDUEntry_decodedEntry "d" 0 0 0 0 (by omega)
      (by simp only [maxInt64]; omega) (by omega) (by simp only [maxInt64]; omega)
      (by omega), ok_bind]
    simp only [decodedEntry_name, decodedEntry_asize, decodedEntry_dsize]
    rw [nameStep_eq false "d" (by decide), pure_bind_except]
    rw [validateSizeField_ok 0 (by omega), ok_bind, ok_bind]
    have hkids : parseChildren (exportList [deepChain k]) d = .error .depthLimit := by
      rw [show exportList [deepChain k] = [exportNode (deepChain k)] from rfl]
      have hshape : ∃ es, exportNode (deepChain k) = .jarr es := by
        cases k with
        | zero => exact ⟨_, rfl⟩
        | succ j => exact ⟨_, rfl⟩
      obtain ⟨es, hes⟩ := hshape
      rw [hes, parseChildren_eq_arr]
      by_cases hdl : d = maxImportDepth
      · rw [← hes, parseDir_depth_exceeded _ _ _ (by omega), error_bind]
      · rw [← hes, ih (d + 1) (by omega) (by omega), error_bind]
    rw [hkids, error_bind]

/-- Importing the export of `deepRoot n` fails with the depth error whenever
the total nesting `n + 2` exceeds the 1002 levels the decoder accepts. -/
theorem importJSON_deepRoot_fails (n : Nat) (hn : maxImportDepth ≤ n) :
    importJSON (exportDoc (deepRoot n)) = .error .depthLimit := by
  rw [importJSON_exportDoc]
  have hroot : parseDir (exportNode (deepRoot n)) true 0 = .error .depthLimit := by
    rw [show exportNode (deepRoot n) =
      .jarr (.jobj (entryFields "/r" 0 0 0 0) ::
        exportList [deepChain n]) from rfl]
    rw [parseDir_eq_cons _ _ _ _ (by simp [maxImportDepth])]
    rw [parseNCDUEntry_decodedEntry "/r" 0 0 0 0 (by omega)
      (by simp only [maxInt64]; omega) (by omega) (by simp only [maxInt64]; omega)
      (by omega), ok_bind]
    rw [decodedEntry_name, decodedEntry_asize, decodedEntry_dsize]
    rw [nameStep_eq true "/r" (by decide), pure_bind_except]
    rw [validateSizeField_ok 0 (by omega), ok_bind, ok_bind]
    have hkids : parseChildren (exportList [deepChain n]) 0 = .error .depthLimit := by
      rw [show exportList [deepChain n] = [exportNode (deepChain n)] from rfl]
      have hshape : ∃ es, exportNode (deepChain n) = .jarr es := by
        cases n with
        | zero => exact ⟨_, rfl⟩
        | succ j => exact ⟨_, rfl⟩
      obtain ⟨es, hes⟩ := hshape
      rw [hes, parseChildren_eq_arr, ← hes]
      rw [parseDir_deepChain_fails n 1 (by simp [maxImportDepth]) (by omega),
        error_bind]
    rw [hkids, error_bind]
  rw [hroot, error_bind]

/-! ### Array depth of exported deep chains -/

theorem arrDepth_exportChain (n : Nat) :
    arrDepth (exportNode (deepChain n)) = n + 1 := by
  induction n with
  | zero =>
    rw [show exportNode (deepChain 0) =
      .jarr [.jobj (entryFields "d" 0 0 0 0)] from rfl]
    rw [show arrDepth (JVal.jarr [.jobj (entryFields "d" 0 0 0 0)]) =
      1 + max (arrDepth (JVal.jobj (entryFields "d" 0 0 0 0))) 0 from rfl]
    rw [show arrDepth (JVal.jobj (entryFields "d" 0 0 0 0)) = 0 from rfl]
    omega
  | succ k ih =>
    rw [show exportNode (deepChain (k + 1)) =
      .jarr [.jobj (entryFields "d" 0 0 0 0), exportNode (deepChain k)] from rfl]
    rw [show arrDepth (JVal.jarr [.jobj (entryFields "d" 0 0 0 0),
      exportNode (deepChain k)]) =
      1 + max (arrDepth (JVal.jobj (entryFields "d" 0 0 0 0)))
        (max (arrDepth (exportNode (deepChain k))) 0) from rfl]
    rw [ih, show arrDepth (JVal.jobj (entryFields "d" 0 0 0 0)) = 0 from rfl]
    omega

theorem arrDepth_exportRoot (n : Nat) :
    arrDepth (exportNode (deepRoot n)) = n + 2 := by
  rw [show exportNode (deepRoot n) =
    .jarr [.jobj (entryFields "/r" 0 0 0 0), exportNode (deepChain n)] from rfl]
  rw [show arrDepth (JVal.jarr [.jobj (entryFields "/r" 0 0 0 0),
    exportNode (deepChain n)]) =
    1 + max (arrDepth (JVal.jobj (entryFields "/r" 0 0 0 0)))
      (max (arrDepth (exportNode (deepChain n))) 0) from rfl]
  rw [arrDepth_exportChain,
    show arrDepth (JVal.jobj (entryFields "/r" 0 0 0 0)) = 0 from rfl]
  omega

theorem arrDepth_exportDocRoot (n : Nat) :
    arrDepth (exportDoc (deepRoot n)) = n + 3 := by
  rw [show exportDoc (deepRoot n) = .jarr [.jnum 1, .jnum 0,
    .jobj [("progname", .jstr "godu"), ("progver", .jstr "dev"),
      ("timestamp", .jnum 0)],
    exportNode (deepRoot n)] from rfl]
  rw [show arrDepth (JVal.jarr [JVal.jnum 1, JVal.jnum 0,
    JVal.jobj [("progname", JVal.jstr "godu"), ("progver", JVal.jstr "dev"),
      ("timestamp", JVal.jnum 0)],
    exportNode (deepRoot n)]) =
    1 + max 0 (max 0 (max 0 (max (arrDepth (exportNode (deepRoot n))) 0)))
    from rfl]
  rw [arrDepth_exportRoot]
  omega

/-! ### C3 and C5: counterexamples, the C5 boundary, and witnesses -/

/-- C3 counterexample: the aggregated walker-shaped tree `deepRoot 1000`
(1002 nested directory levels) encodes to a document whose decoding fails
with the depth error, so the universal round-trip claim over walker trees is
false. -/
theorem roundtrip_depth_cex :
    (deepRoot 1000).isDir = true ∧ wfNode true (deepRoot 1000) = true ∧
    importJSON (exportDoc (deepRoot 1000)) = .error .depthLimit :=
  ⟨rfl, wf_deepRoot 1000 (by decide), importJSON_deepRoot_fails 1000 (by decide)⟩

/-- Witness for C3 (amended): a concrete two-level tree round-trips. -/
theorem export_import_roundtrip_witness :
    (TreeNode.dir ⟨"/r", 5, 10, 0, 0, 0⟩
      [.file ⟨"a", 5, 10, 3, 7, 2⟩] 1).isDir = true ∧
    wfNode true (.dir ⟨"/r", 5, 10, 0, 0, 0⟩
      [.file ⟨"a", 5, 10, 3, 7, 2⟩] 1) = true ∧
    dirDepth (.dir ⟨"/r", 5, 10, 0, 0, 0⟩
      [.file ⟨"a", 5, 10, 3, 7, 2⟩] 1) ≤ maxImportDepth + 1 ∧
    ∃ t', importJSON (exportDoc (.dir ⟨"/r", 5, 10, 0, 0, 0⟩
        [.file ⟨"a", 5, 10, 3, 7, 2⟩] 1)) = .ok t' ∧
      snapEq t' (.dir ⟨"/r", 5, 10, 0, 0, 0⟩
        [.file ⟨"a", 5, 10, 3, 7, 2⟩] 1) = true :=
  ⟨rfl, by decide, by decide,
    export_import_roundtrip _ rfl (by decide) (by decide)⟩

/-- C5 (amended): no document whose array nesting — the top-level document
array included — stays within 1002, i.e. no document with at most 1001 nested
directory-array levels, is ever rejected for depth; rejection starts at 1002
directory levels: the export of `deepRoot 1000` (1002 directory levels,
document nesting 1003) fails with the depth-limit format error. -/
theorem import_depth_boundary :
    (∀ doc : JVal, arrDepth doc ≤ maxImportDepth + 2 →
      importJSON doc ≠ .error .depthLimit) ∧
    arrDepth (exportDoc (deepRoot 1000)) = maxImportDepth + 3 ∧
    importJSON (exportDoc (deepRoot 1000)) = .error .depthLimit :=
  ⟨importJSON_no_depthErr,
    by rw [arrDepth_exportDocRoot]; decide,
    importJSON_deepRoot_fails 1000 (by decide)⟩

/-- Witness for C5 (amended): the trivial empty-array document is within the
depth budget and is not rejected for depth. -/
theorem import_depth_boundary_witness :
    arrDepth (.jarr []) ≤ maxImportDepth + 2 ∧
    importJSON (.jarr []) ≠ .error .depthLimit :=
  ⟨by decide, import_depth_boundary.1 (.jarr []) (by decide)⟩

/-- C5 counterexample: the export of `deepRoot 999` is a document with 1001
nested directory-array levels, yet `ImportJSON` accepts it (reproducing the
tree up to the snapshot), refuting the claim that every document with 1001
nested directory levels is rejected for depth. -/
theorem import_1001_levels_ok :
    arrDepth (exportNode (deepRoot 999)) = maxImportDepth + 1 ∧
    ∃ t', importJSON (exportDoc (deepRoot 999)) = .ok t' ∧
      snapEq t' (deepRoot 999) = true := by
  refine ⟨by rw [arrDepth_exportRoot]; decide, ?_⟩
  obtain ⟨t', hp, hs⟩ := parse_export_node (deepRoot 999) true 0 rfl
    (wf_deepRoot 999 (by decide)) (by rw [dirDepth_deepRoot]; decide)
  refine ⟨t', ?_, hs⟩
  rw [importJSON_exportDoc, hp, ok_bind, parseDir_ok_updateSize _ _ _ _ hp]
  rfl

/-! ### Witnesses for the remaining hypothesized claim theorems -/

/-- Witness for C2: concrete resolutions with the target outside the root
produce the scope error and leave the filesystem unchanged. -/
theorem delete_scope_boundary_witness :
    (FS.mk [] [(⟨true, []⟩, ⟨true, []⟩),
      (⟨true, ["a"]⟩, ⟨true, ["a"]⟩)]).resolve (dirOf ⟨true, ["b"]⟩) =
      some ⟨true, []⟩ ∧
    (FS.mk [] [(⟨true, []⟩, ⟨true, []⟩),
      (⟨true, ["a"]⟩, ⟨true, ["a"]⟩)]).resolve ⟨true, ["a"]⟩ =
      some ⟨true, ["a"]⟩ ∧
    ¬(beneathOrEqual ⟨true, ["a"]⟩ (canonTarget ⟨true, []⟩ ⟨true, ["b"]⟩) ∧
      canonTarget ⟨true, []⟩ ⟨true, ["b"]⟩ ≠ (⟨true, ["a"]⟩ : GoPath)) ∧
    deleteGo (FS.mk [] [(⟨true, []⟩, ⟨true, []⟩),
        (⟨true, ["a"]⟩, ⟨true, ["a"]⟩)]) ⟨true, ["b"]⟩ ⟨true, ["a"]⟩ =
      (some .scope, FS.mk [] [(⟨true, []⟩, ⟨true, []⟩),
        (⟨true, ["a"]⟩, ⟨true, ["a"]⟩)]) := by
  have hnb : ¬(beneathOrEqual ⟨true, ["a"]⟩
      (canonTarget ⟨true, []⟩ ⟨true, ["b"]⟩) ∧
      canonTarget ⟨true, []⟩ ⟨true, ["b"]⟩ ≠ (⟨true, ["a"]⟩ : GoPath)) := by
    intro hcontra
    rcases hcontra.1 with ⟨_, hpre⟩
    rcases hpre with ⟨t, ht⟩
    simp [canonTarget] at ht
  exact ⟨by decide, by decide, hnb,
    (delete_scope_boundary _ _ _).2.1 ⟨true, []⟩ ⟨true, ["a"]⟩
      (by decide) (by decide) hnb⟩

/-- Witness for C6: concrete cleaned absolute paths, target strictly beneath
the root. -/
theorem isWithin_iff_beneath_witness :
    wfPath ⟨true, ["a"]⟩ = true ∧ wfPath ⟨true, ["a", "b"]⟩ = true ∧
    (isWithin ⟨true, ["a"]⟩ ⟨true, ["a", "b"]⟩ = true ↔
      beneathOrEqual ⟨true, ["a"]⟩ ⟨true, ["a", "b"]⟩) :=
  ⟨by decide, by decide, isWithin_iff_beneath _ _ (by decide) (by decide)⟩

/-- Witness for C8 (amended): a concrete in-range size and block size obey the
least-multiple characterization. -/
theorem estimateDiskUsage_spec_witness :
    (0 : Int) ≤ 5000 ∧ (0 : Int) < 4096 ∧
    (5000 : Int) + 4096 - 1 ≤ maxInt64 ∧
    ∃ k : Int, estimateDiskUsage 5000 4096 = k * 4096 ∧
      (5000 : Int) ≤ k * 4096 ∧ k * 4096 < 5000 + 4096 :=
  ⟨by decide, by decide, by decide,
    estimateDiskUsage_spec.1 5000 4096 (by decide) (by decide) (by decide)⟩

/-- Witness for C9: importing the export of a concrete one-directory tree
succeeds and every node of the result carries the zero mtime. -/
theorem importJSON_mtimes_zero_witness :
    ∃ t, importJSON (exportDoc (.dir ⟨"/r", 5, 10, 0, 0, 0⟩
      [.file ⟨"a", 5, 10, 3, 7, 2⟩] 1)) = .ok t ∧ mtimesZero t = true := by
  obtain ⟨t, ht, _⟩ := parse_export_node
    (.dir ⟨"/r", 5, 10, 0, 0, 0⟩ [.file ⟨"a", 5, 10, 3, 7, 2⟩] 1) true 0 rfl
    (by decide) (by decide)
  have hok : importJSON (exportDoc (.dir ⟨"/r", 5, 10, 0, 0, 0⟩
      [.file ⟨"a", 5, 10, 3, 7, 2⟩] 1)) = .ok t := by
    rw [importJSON_exportDoc, ht, ok_bind, parseDir_ok_updateSize _ _ _ _ ht]
    rfl
  exact ⟨t, hok, importJSON_mtimes_zero _ _ hok⟩

/-- C10: `UpdateSize` writes only the derived fields `Size`, `Usage` and
`ItemCount` of the directory it runs on; the directory's name, mtime, inode,
flag and its entire children list (hence every other node of the tree, and
every parent relationship, which the nesting represents) are unchanged. -/
theorem updateSize_frame (m : FileMeta) (cs : List TreeNode) (ic : Int) :
    ∃ s u n, updateSize (.dir m cs ic) =
      .dir { m with size := s, usage := u } cs n := by
  unfold updateSize
  exact ⟨_, _, _, rfl⟩

end Godu
